import Mathlib

/-!
# Verification of the USNO moon-illumination monthly aggregator

Shallow embedding of `src/utils/moon_illumination.py` (the lunar-illumination
aggregator: fetch with retry, HTML table normalizer, wrapped-day-row
reconstructor, validator/aggregator, completeness check, CSV writer), together
with theorems settling the specification claims about it.

Python strings are modelled as `List Char` (`Str`), Python floats as exact
rationals (`ℚ`), and fallible code as `Except`.
-/

set_option maxHeartbeats 1000000

namespace Moon

/-- Python strings, modelled as lists of characters. -/
abbrev Str := List Char

/-- The character class of Python's regex `\s` (and of `str.strip()` /
`str.isspace()`) restricted to the ASCII range, which is the only range this
program's data contains. -/
def isPySpace (c : Char) : Bool :=
  c == ' ' || c == '\t' || c == '\n' || c == '\r' || c == '\x0b' || c == '\x0c'

/-- The character class of the regex `[ \t]` (horizontal whitespace). -/
def isBlank (c : Char) : Bool := c == ' ' || c == '\t'

/-- Case-insensitive prefix test, used for the `(?i)` regexes. -/
def ciStarts : Str → Str → Bool
  | [], _ => true
  | _ :: _, [] => false
  | p :: ps, c :: cs => (c.toLower == p.toLower) && ciStarts ps cs

theorem ciStarts_length : ∀ p l : Str, ciStarts p l = true → p.length ≤ l.length := by
  intro p
  induction p with
  | nil => intro l _; simp
  | cons a ps ih =>
    intro l h
    cases l with
    | nil => simp [ciStarts] at h
    | cons c cs =>
      simp only [ciStarts, Bool.and_eq_true] at h
      simpa using Nat.succ_le_succ (ih cs h.2)

/-! ## A generic left-to-right scan-and-rewrite engine

Each `re.sub` (and `html.unescape`, and `str.replace`) in
`html_to_text_preserve_table` is a single left-to-right pass: at each position
either the pattern matches (emit the replacement, continue after the match) or
it does not (emit the character, advance one).  `scan step` runs such a pass,
where `step l` returns `some (out, rest)` when the pattern matches at the head
of `l` (with `out` the replacement and `rest` the remainder after the match)
and `none` otherwise.  Fuel makes the recursion structural; `scan` supplies
fuel equal to the input length, which always suffices because a match consumes
at least one character. -/

def scanGo (step : Str → Option (Str × Str)) : Nat → Str → Str
  | 0, l => l
  | _ + 1, [] => []
  | f + 1, c :: l =>
    match step (c :: l) with
    | some (out, rest) => out ++ scanGo step f rest
    | none => c :: scanGo step f l

def scan (step : Str → Option (Str × Str)) (l : Str) : Str :=
  scanGo step l.length l

/-- A step is shrinking when any match consumes at least one character. -/
def StepShrinks (step : Str → Option (Str × Str)) : Prop :=
  ∀ l out rest, step l = some (out, rest) → rest.length < l.length

theorem scanGo_fuel (step : Str → Option (Str × Str)) (hs : StepShrinks step) :
    ∀ f₁ f₂ l, l.length ≤ f₁ → l.length ≤ f₂ → scanGo step f₁ l = scanGo step f₂ l := by
  intro f₁
  induction f₁ with
  | zero =>
    intro f₂ l h₁ _
    have : l = [] := List.length_eq_zero.mp (Nat.le_zero.mp h₁)
    subst this
    cases f₂ <;> rfl
  | succ f ih =>
    intro f₂ l h₁ h₂
    cases l with
    | nil => cases f₂ <;> rfl
    | cons c t =>
      cases f₂ with
      | zero => exact absurd h₂ (by simp)
      | succ f₂' =>
        cases hstep : step (c :: t) with
        | none =>
          have ht : t.length ≤ f := by simpa using Nat.succ_le_succ_iff.mp h₁
          have ht₂ : t.length ≤ f₂' := by simpa using Nat.succ_le_succ_iff.mp h₂
          simp only [scanGo, hstep]
          rw [ih f₂' t ht ht₂]
        | some pr =>
          obtain ⟨out, rest⟩ := pr
          have hr := hs _ _ _ hstep
          have h₁' : rest.length ≤ f := by
            have := Nat.lt_of_lt_of_le hr h₁
            omega
          have h₂' : rest.length ≤ f₂' := by
            have := Nat.lt_of_lt_of_le hr h₂
            omega
          simp only [scanGo, hstep]
          rw [ih f₂' rest h₁' h₂']

theorem scan_nil (step : Str → Option (Str × Str)) : scan step [] = [] := rfl

theorem scan_cons_none (step : Str → Option (Str × Str))
    (c : Char) (l : Str) (h : step (c :: l) = none) :
    scan step (c :: l) = c :: scan step l := by
  show scanGo step (c :: l).length (c :: l) = c :: scan step l
  simp only [List.length_cons, scanGo, h]
  rfl

theorem scan_match (step : Str → Option (Str × Str)) (hs : StepShrinks step)
    (l out rest : Str) (hl : l ≠ []) (h : step l = some (out, rest)) :
    scan step l = out ++ scan step rest := by
  cases l with
  | nil => exact absurd rfl hl
  | cons c t =>
    show scanGo step (c :: t).length (c :: t) = out ++ scan step rest
    simp only [List.length_cons, scanGo, h]
    have hr := hs _ _ _ h
    rw [scanGo_fuel step hs t.length rest.length rest (by simpa using Nat.lt_succ_iff.mp hr)
      (Nat.le_refl _)]
    rfl

/-- `Rew step s s'` : scanning any string that begins with `s` rewrites that
prefix to `s'` and then proceeds independently with the remainder. -/
def Rew (step : Str → Option (Str × Str)) (s s' : Str) : Prop :=
  ∀ r, scan step (s ++ r) = s' ++ scan step r

theorem Rew.nil (step : Str → Option (Str × Str)) : Rew step [] [] := by
  intro r; simp

theorem Rew.append {step : Str → Option (Str × Str)} {a a' b b' : Str}
    (ha : Rew step a a') (hb : Rew step b b') : Rew step (a ++ b) (a' ++ b') := by
  intro r
  rw [List.append_assoc, ha (b ++ r), hb r, List.append_assoc]

theorem Rew.cons_none {step : Str → Option (Str × Str)}
    {c : Char} {s s' : Str} (h : ∀ r, step (c :: (s ++ r)) = none)
    (hrest : Rew step s s') : Rew step (c :: s) (c :: s') := by
  intro r
  have := scan_cons_none step c (s ++ r) (h r)
  simp only [List.cons_append, this, hrest r]

theorem Rew.free {step : Str → Option (Str × Str)} {s : Str}
    (h : ∀ c ∈ s, ∀ t, step (c :: t) = none) : Rew step s s := by
  induction s with
  | nil => exact Rew.nil step
  | cons c t ih =>
    exact Rew.cons_none (fun r => h c (by simp) _)
      (ih (fun d hd t' => h d (by simp [hd]) t'))

theorem Rew.of_match {step : Str → Option (Str × Str)} (hs : StepShrinks step)
    {s s' : Str} (hne : s ≠ []) (h : ∀ r, step (s ++ r) = some (s', r)) :
    Rew step s s' := by
  intro r
  have hne' : s ++ r ≠ [] := by
    intro he
    exact hne (List.append_eq_nil.mp he).1
  exact scan_match step hs (s ++ r) s' r hne' (h r)

theorem Rew.scan_eq {step : Str → Option (Str × Str)} {s s' : Str}
    (h : Rew step s s') : scan step s = s' := by
  have := h []
  simpa [scan, scanGo] using this

theorem Rew.flat {step : Str → Option (Str × Str)} {α : Type} {xs : List α}
    {f g : α → Str} (h : ∀ x ∈ xs, Rew step (f x) (g x)) :
    Rew step (xs.flatMap f) (xs.flatMap g) := by
  induction xs with
  | nil => exact Rew.nil step
  | cons x t ih =>
    simp only [List.flatMap_cons]
    exact Rew.append (h x (by simp)) (ih (fun y hy => h y (by simp [hy])))

/-! ## The substitution passes of `html_to_text_preserve_table` -/

/-- Step of `html.unescape` (modelled from the Python standard library's
documented behaviour): at an ampersand the common named character references
are decoded; text containing no ampersand is left verbatim, which is the only
case the theorems below depend on. -/
def stepUnescape (l : Str) : Option (Str × Str) :=
  match l with
  | c :: t =>
    if c = '&' then
      if ['a','m','p',';'].isPrefixOf t then some (['&'], t.drop 4)
      else if ['l','t',';'].isPrefixOf t then some (['<'], t.drop 3)
      else if ['g','t',';'].isPrefixOf t then some (['>'], t.drop 3)
      else if ['q','u','o','t',';'].isPrefixOf t then some ([Char.ofNat 34], t.drop 5)
      else if ['a','p','o','s',';'].isPrefixOf t then some ([Char.ofNat 39], t.drop 5)
      else none
    else none
  | [] => none

/-- Step of the cell-boundary substitution (line 65): the regex alternation
of a closing td or closing th tag, case-insensitively, replaced by a space. -/
def stepCellEnd (l : Str) : Option (Str × Str) :=
  if ciStarts ['<','/','t','d','>'] l || ciStarts ['<','/','t','h','>'] l then
    some ([' '], l.drop 5)
  else none

/-- Step of a case-insensitive literal substitution (the closing tr tag on
line 66 and the closing p tag on line 68). -/
def stepLit (pat rep : Str) (l : Str) : Option (Str × Str) :=
  if !pat.isEmpty && ciStarts pat l then some (rep, l.drop pat.length) else none

/-- Step of a case-sensitive literal substitution (the `str.replace` calls on
line 78). -/
def stepLitCS (pat rep : Str) (l : Str) : Option (Str × Str) :=
  if !pat.isEmpty && pat.isPrefixOf l then some (rep, l.drop pat.length) else none

/-- The part of the br regex (line 67) after the letters: optional whitespace,
an optional slash, then the closing angle bracket. -/
def brTail (l : Str) : Option Str :=
  match l.dropWhile isPySpace with
  | '/' :: '>' :: rest => some rest
  | '>' :: rest => some rest
  | _ => none

/-- Step of the br-tag substitution (line 67). -/
def stepBr (l : Str) : Option (Str × Str) :=
  if ciStarts ['<','b','r'] l then
    match brTail (l.drop 3) with
    | some rest => some (['\n'], rest)
    | none => none
  else none

/-- Search for the earliest case-insensitive occurrence of `pat` (the lazy
tail of the script/style regexes), returning the remainder after it. -/
def findCloseGo (pat : Str) : Nat → Str → Option Str
  | 0, _ => none
  | _ + 1, [] => none
  | f + 1, c :: l =>
    if ciStarts pat (c :: l) then some ((c :: l).drop pat.length)
    else findCloseGo pat f l

/-- Head match of the script/style block regexes (lines 71-72): the opening
tag with a word boundary, attribute characters up to the closing angle
bracket, then (dot-all, lazily) everything up to the nearest closing tag. -/
def blockTail (openTag closeTag : Str) (l : Str) : Option Str :=
  if ciStarts openTag l then
    let after := l.drop openTag.length
    let boundaryOk := match after with
      | [] => true
      | c :: _ => !(c.isAlphanum || c == '_')
    if boundaryOk then
      match after.dropWhile (fun c => c != '>') with
      | '>' :: body => findCloseGo closeTag body.length body
      | _ => none
    else none
  else none

/-- Step of the script/style block removal (lines 71-72). -/
def stepBlock (openTag closeTag : Str) (l : Str) : Option (Str × Str) :=
  match blockTail openTag closeTag l with
  | some rest => some ([], rest)
  | none => none

/-- Step of the generic tag stripping (line 75): an opening angle bracket, at
least one character other than a closing angle bracket, then a closing angle
bracket; removed. -/
def stepTag (l : Str) : Option (Str × Str) :=
  match l with
  | '<' :: t =>
    match t.dropWhile (fun c => c != '>') with
    | '>' :: rest =>
      if (t.takeWhile (fun c => c != '>')).isEmpty then none else some ([], rest)
    | _ => none
  | _ => none

/-- Step of the horizontal-whitespace collapse (line 79): a maximal nonempty
run of blanks becomes a single space. -/
def stepSpaces (l : Str) : Option (Str × Str) :=
  match l with
  | c :: t => if isBlank c then some ([' '], t.dropWhile isBlank) else none
  | [] => none

/-- Step of the blank-line collapse (line 80): a maximal run of two or more
newlines becomes a single newline. -/
def stepNewlines (l : Str) : Option (Str × Str) :=
  match l with
  | '\n' :: c :: t =>
    if c == '\n' then some (['\n'], (c :: t).dropWhile (fun x => x == '\n')) else none
  | _ => none

/-- Python `str.strip()`. -/
def pyStrip (l : Str) : Str :=
  ((l.dropWhile isPySpace).reverse.dropWhile isPySpace).reverse

/-- Python `str.split` on a newline: the list of segments between newline
characters (the empty string splits to one empty segment). -/
def splitNl : Str → List Str
  | [] => [[]]
  | c :: t =>
    if c = '\n' then [] :: splitNl t
    else
      match splitNl t with
      | [] => [[c]]
      | a :: as => (c :: a) :: as

/-- `html_to_text_preserve_table` (lines 57-82): convert HTML to parseable
text while preserving table cell/row boundaries.  Each regex substitution or
string replacement of the source is one `scan` pass, in source order:
unescape; closing td/th to space; closing tr to newline; br to newline;
closing p to newline; script blocks removed; style blocks removed; remaining
tags stripped; carriage returns normalized; horizontal whitespace collapsed;
newline runs collapsed; final strip. -/
def html_to_text_preserve_table (page : Str) : Str :=
  let h0 := scan stepUnescape page
  let h1 := scan stepCellEnd h0
  let h2 := scan (stepLit ['<','/','t','r','>'] ['\n']) h1
  let h3 := scan stepBr h2
  let h4 := scan (stepLit ['<','/','p','>'] ['\n']) h3
  let h5 := scan (stepBlock ['<','s','c','r','i','p','t'] ['<','/','s','c','r','i','p','t','>']) h4
  let h6 := scan (stepBlock ['<','s','t','y','l','e'] ['<','/','s','t','y','l','e','>']) h5
  let h7 := scan stepTag h6
  let h8 := scan (stepLitCS ['\r','\n'] ['\n']) h7
  let h9 := scan (stepLitCS ['\r'] ['\n']) h8
  let h10 := scan stepSpaces h9
  let h11 := scan stepNewlines h10
  pyStrip h11

/-! ### Every step consumes at least one character -/

theorem stepUnescape_shrinks : StepShrinks stepUnescape := by
  intro l out rest h
  cases l with
  | nil => simp [stepUnescape] at h
  | cons c t =>
    simp only [stepUnescape] at h
    repeat' split at h
    all_goals
      simp only [Option.some.injEq, Prod.mk.injEq, reduceCtorEq] at h
    all_goals
      obtain ⟨-, hr⟩ := h
    all_goals
      subst hr
    all_goals
      simp only [List.length_drop, List.length_cons]
    all_goals omega

theorem stepCellEnd_shrinks : StepShrinks stepCellEnd := by
  intro l out rest h
  simp only [stepCellEnd] at h
  split at h
  · rename_i hc
    obtain ⟨-, hr⟩ := by simpa using h
    subst hr
    rcases Bool.or_eq_true_iff.mp hc with h5 | h5 <;>
      have := ciStarts_length _ _ h5 <;> simp at this ⊢ <;> omega
  · simp at h

theorem stepLit_shrinks (pat rep : Str) : StepShrinks (stepLit pat rep) := by
  intro l out rest h
  simp only [stepLit] at h
  split at h
  · rename_i hc
    simp only [Bool.and_eq_true, Bool.not_eq_true'] at hc
    obtain ⟨-, hr⟩ := by simpa using h
    subst hr
    have hlen := ciStarts_length _ _ hc.2
    have hp : 0 < pat.length := List.length_pos.mpr (by simpa using hc.1)
    simp only [List.length_drop]
    omega
  · simp at h

theorem stepLitCS_shrinks (pat rep : Str) : StepShrinks (stepLitCS pat rep) := by
  intro l out rest h
  simp only [stepLitCS] at h
  split at h
  · rename_i hc
    simp only [Bool.and_eq_true, Bool.not_eq_true'] at hc
    obtain ⟨-, hr⟩ := by simpa using h
    subst hr
    have hlen : pat.length ≤ l.length :=
      (List.isPrefixOf_iff_prefix.mp hc.2).length_le
    have hp : 0 < pat.length := List.length_pos.mpr (by simpa using hc.1)
    simp only [List.length_drop]
    omega
  · simp at h

theorem brTail_length {l r : Str} (h : brTail l = some r) : r.length < l.length + 1 := by
  have hd : (l.dropWhile isPySpace).length ≤ l.length := (List.dropWhile_sublist _).length_le
  simp only [brTail] at h
  split at h <;>
    first
      | (rename_i heq
         obtain rfl := by simpa using h
         have := congrArg List.length heq
         simp at this
         omega)
      | simp at h

theorem stepBr_shrinks : StepShrinks stepBr := by
  intro l out rest h
  simp only [stepBr] at h
  split at h
  · rename_i hc
    have h3 := ciStarts_length _ _ hc
    split at h
    · rename_i r heq
      obtain ⟨-, hr⟩ := by simpa using h
      subst hr
      have := brTail_length heq
      simp only [List.length_drop] at this ⊢
      simp at h3
      omega
    · simp at h
  · simp at h

theorem findCloseGo_length (pat : Str) :
    ∀ f l r, findCloseGo pat f l = some r → r.length ≤ l.length := by
  intro f
  induction f with
  | zero => intro l r h; simp [findCloseGo] at h
  | succ f ih =>
    intro l r h
    cases l with
    | nil => simp [findCloseGo] at h
    | cons c t =>
      simp only [findCloseGo] at h
      split at h
      · obtain rfl := by simpa using h
        simp only [List.length_drop]
        omega
      · have := ih t r h
        simp only [List.length_cons]
        omega

theorem stepBlock_shrinks (openTag closeTag : Str) (hne : openTag ≠ []) :
    StepShrinks (stepBlock openTag closeTag) := by
  intro l out rest h
  simp only [stepBlock] at h
  split at h
  · rename_i r heq
    obtain ⟨-, hr⟩ := by simpa using h
    subst hr
    simp only [blockTail] at heq
    split at heq
    · rename_i hci
      have hop := ciStarts_length _ _ hci
      have hpos : 0 < openTag.length := List.length_pos.mpr hne
      split at heq
      · split at heq
        · rename_i body hdrop
          have h1 : (l.drop openTag.length).length ≤ l.length - openTag.length := by
            simp [List.length_drop]
          have h2 : ((l.drop openTag.length).dropWhile (fun c => c != '>')).length ≤
              (l.drop openTag.length).length := (List.dropWhile_sublist _).length_le
          have h3 := congrArg List.length hdrop
          simp only [List.length_cons] at h3
          have h4 := findCloseGo_length closeTag body.length body r heq
          omega
        · simp at heq
      · simp at heq
    · simp at heq
  · simp at h

theorem stepTag_shrinks : StepShrinks stepTag := by
  intro l out rest h
  cases l with
  | nil => simp [stepTag] at h
  | cons c t =>
    simp only [stepTag] at h
    split at h
    · rename_i t' heq
      injection heq with h1 h2
      subst h2
      split at h
      · rename_i rest' hdrop
        split at h
        · simp at h
        · obtain ⟨-, hr⟩ := by simpa using h
          subst hr
          have hle : (t.dropWhile (fun c => c != '>')).length ≤ t.length :=
            (List.dropWhile_sublist _).length_le
          have h2 := congrArg List.length hdrop
          simp only [List.length_cons] at h2
          simp only [List.length_cons]
          omega
      · simp at h
    · simp at h

theorem stepSpaces_shrinks : StepShrinks stepSpaces := by
  intro l out rest h
  cases l with
  | nil => simp [stepSpaces] at h
  | cons c t =>
    simp only [stepSpaces] at h
    split at h
    · obtain ⟨-, hr⟩ := by simpa using h
      subst hr
      have : (t.dropWhile isBlank).length ≤ t.length :=
        (List.dropWhile_sublist _).length_le
      simp only [List.length_cons]
      omega
    · simp at h

theorem stepNewlines_shrinks : StepShrinks stepNewlines := by
  intro l out rest h
  simp only [stepNewlines] at h
  split at h
  · rename_i c t
    split at h
    · obtain ⟨-, hr⟩ := by simpa using h
      subst hr
      have hle : ((c :: t).dropWhile (fun x => x == '\n')).length ≤ (c :: t).length :=
        (List.dropWhile_sublist _).length_le
      simp only [List.length_cons] at hle ⊢
      omega
    · simp at h
  · simp at h

/-! ## The row reconstructor (`DAY_START_RE`, `TOKEN_RE`,
`parse_wrapped_day_rows`, lines 85-131) -/

/-- Numeric value of a string of decimal digits. -/
def digitsToNat (s : Str) : Nat :=
  s.foldl (fun n c => n * 10 + (c.toNat - 48)) 0

/-- `DAY_START_RE.match` (line 85): optional leading whitespace, exactly two
digits, at least one whitespace character, then the rest of the line.  Returns
the two-digit day number and the rest (the text after the whitespace run),
mirroring `int(m.group(1))` and `m.group(2)`.  Lines here never contain a
newline (they come from a newline split), so the rest-of-line group is the
entire remainder. -/
def dayStartMatch (l : Str) : Option (Nat × Str) :=
  match l.dropWhile isPySpace with
  | a :: b :: c :: rest =>
    if a.isDigit && b.isDigit && isPySpace c then
      some ((a.toNat - 48) * 10 + (b.toNat - 48), (c :: rest).dropWhile isPySpace)
    else none
  | _ => none

/-- One `TOKEN_RE` findall pass (line 86): at each position either the
placeholder marker (two dashes) or a decimal number (digits, dot, digits,
both runs maximal) matches and is collected, or the scan advances one
character. -/
def tokenFindallGo : Nat → Str → List Str
  | 0, _ => []
  | _ + 1, [] => []
  | f + 1, c :: l =>
    if c = '-' then
      match l with
      | '-' :: rest => ['-', '-'] :: tokenFindallGo f rest
      | _ => tokenFindallGo f l
    else if c.isDigit then
      let d1 := (c :: l).takeWhile Char.isDigit
      match (c :: l).dropWhile Char.isDigit with
      | '.' :: r2 =>
        let d2 := r2.takeWhile Char.isDigit
        if d2.isEmpty then tokenFindallGo f l
        else (d1 ++ '.' :: d2) :: tokenFindallGo f (r2.dropWhile Char.isDigit)
      | _ => tokenFindallGo f l
    else tokenFindallGo f l

/-- `TOKEN_RE.findall`. -/
def tokenFindall (l : Str) : List Str :=
  tokenFindallGo l.length l

/-- Python `float` on a token matched by the decimal alternative of
`TOKEN_RE` (digits, dot, digits), modelled as the exact rational value. -/
def parseDecimal (t : Str) : ℚ :=
  let ip := t.takeWhile Char.isDigit
  match t.dropWhile Char.isDigit with
  | '.' :: fp => (digitsToNat ip : ℚ) + (digitsToNat fp : ℚ) / (10 : ℚ) ^ fp.length
  | _ => (digitsToNat ip : ℚ)

/-- `None if t == "--" else float(t)` (line 105). -/
def tokToVal (t : Str) : Option ℚ :=
  if t = ['-', '-'] then none else some (parseDecimal t)

/-- A reconstructed day row: the day-of-month and the twelve monthly values
(line 106). -/
abbrev DayRow := Nat × List (Option ℚ)

/-- `flush_if_complete` (lines 99-110) acting on the parser state
`(current_day, current_tokens)`: when a day is open and at least twelve
tokens have been collected, the first twelve are converted and emitted and
the state is cleared.  Returns the new state and the emitted rows. -/
def flush_if_complete (day : Option Nat) (toks : List Str) :
    Option Nat × List Str × List DayRow :=
  match day with
  | none => (none, toks, [])
  | some d =>
    if 12 ≤ toks.length then
      (none, [], [(d, (toks.take 12).map tokToVal)])
    else (some d, toks, [])

/-- The line loop of `parse_wrapped_day_rows` (lines 112-131), carrying the
state `(current_day, current_tokens)`.  A day-start line discards any open
incomplete record and opens a new one from that line's tokens; any other line
extends the open record (if any) with its tokens; flushing happens after
every extension. -/
def parseWrappedGo : Option Nat → List Str → List Str → List DayRow
  | _, _, [] => []
  | day, toks, ln :: rest =>
    match dayStartMatch ln with
    | some (d, tl) =>
      let t0 := tokenFindall tl
      let s := flush_if_complete (some d) t0
      s.2.2 ++ parseWrappedGo s.1 s.2.1 rest
    | none =>
      match day with
      | none => parseWrappedGo none toks rest
      | some d =>
        let more := tokenFindall ln
        if more.isEmpty then parseWrappedGo (some d) toks rest
        else
          let s := flush_if_complete (some d) (toks ++ more)
          s.2.2 ++ parseWrappedGo s.1 s.2.1 rest

/-- `parse_wrapped_day_rows` (lines 89-131). -/
def parse_wrapped_day_rows (lines : List Str) : List DayRow :=
  parseWrappedGo none [] lines

/-! ## Errors

The fatal error conditions of the program (each a `raise` in the source),
named after the specification's taxonomy. -/

inductive PErr where
  /-- Line 170: end year must be at least the start year. -/
  | configEndBeforeStart : PErr
  /-- Line 45 (`build_params`): tz sign must be minus one or plus one. -/
  | configBadTzSign : PErr
  /-- Line 176: state code absent from the state/timezone table. -/
  | configUnknownState : PErr
  /-- Line 150: fetch failed after exhausting the retries for a year. -/
  | fetchErr (year : Int) : PErr
  /-- Lines 202-205: too few day rows reconstructed for a year. -/
  | reconstructionErr (year : Int) (got : Nat) : PErr
  /-- Line 217: a value outside the unit interval. -/
  | rangeErr (year : Int) (month day : Nat) (value : ℚ) : PErr
  /-- Lines 229-231: month day-count mismatch. -/
  | completenessErr (year : Int) (month expected got : Nat) : PErr
  deriving DecidableEq

/-! ## Calendar (`calendar.monthrange`, `datetime.date`) -/

/-- `calendar.isleap` (proleptic Gregorian, as Python computes it). -/
def isleap (y : Int) : Bool :=
  y % 4 == 0 && (y % 100 != 0 || y % 400 == 0)

/-- The day count of `calendar.monthrange(y, m)` for months one to twelve. -/
def daysInMonth (y : Int) (m : Nat) : Nat :=
  if m = 2 then (if isleap y then 29 else 28)
  else if m = 4 ∨ m = 6 ∨ m = 9 ∨ m = 11 then 30
  else 31

/-- Whether `datetime.date(y, m, d)` succeeds: year within datetime's bounds,
month one to twelve, day one to the month's day count (lines 212-215). -/
def isRealDate (y : Int) (m d : Nat) : Bool :=
  1 ≤ y && y ≤ 9999 && 1 ≤ m && m ≤ 12 && 1 ≤ d && d ≤ daysInMonth y m

/-- `MONTHS = list(range(1, 13))` (line 29). -/
def MONTHS : List Nat := [1, 2, 3, 4, 5, 6, 7, 8, 9, 10, 11, 12]

/-! ## Aggregation (`sum_by_month`, `n_by_month`, lines 186-187, 207-219) -/

/-- The two defaultdict accumulators: per (year, month) running sum of daily
fractions and count of valid days, with default zero. -/
structure RunAcc where
  sum : Int × Nat → ℚ
  n : Int × Nat → Nat

/-- The empty accumulators. -/
def acc0 : RunAcc := ⟨fun _ => 0, fun _ => 0⟩

/-- Lines 218-219: add one valid observation to the accumulators. -/
def accumulate (acc : RunAcc) (key : Int × Nat) (v : ℚ) : RunAcc :=
  { sum := fun k => if k = key then acc.sum k + v else acc.sum k
    n := fun k => if k = key then acc.n k + 1 else acc.n k }

/-- Lines 209-219, one `(month, val)` iteration of the validation and
aggregation loop: a missing value is skipped; a value at a calendar date that
does not exist is skipped; a retained value outside the unit interval is
fatal; otherwise the value is accumulated unchanged. -/
def processVal (year : Int) (month day : Nat) (val : Option ℚ) (acc : RunAcc) :
    Except PErr RunAcc :=
  match val with
  | none => .ok acc
  | some v =>
    if ¬ isRealDate year month day then .ok acc
    else if ¬ (0 ≤ v ∧ v ≤ 1) then .error (.rangeErr year month day v)
    else .ok (accumulate acc (year, month) v)

/-- Line 208: the zip of months and a day row's values, processed in order. -/
def processPairs (year : Int) (day : Nat) :
    List (Nat × Option ℚ) → RunAcc → Except PErr RunAcc
  | [], acc => .ok acc
  | (m, v) :: rest, acc =>
    match processVal year m day v acc with
    | .error e => .error e
    | .ok acc' => processPairs year day rest acc'

/-- Line 207: all day rows of one year, processed in order. -/
def processRows (year : Int) : List DayRow → RunAcc → Except PErr RunAcc
  | [], acc => .ok acc
  | (day, vals) :: rest, acc =>
    match processPairs year day (MONTHS.zip vals) acc with
    | .error e => .error e
    | .ok acc' => processRows year rest acc'

/-- Line 193: the text of a fetched page turned into the non-empty stripped
lines fed to the reconstructor. -/
def pageLines (page : Str) : List Str :=
  ((splitNl (html_to_text_preserve_table page)).map pyStrip).filter
    (fun l => !l.isEmpty)

/-- Lines 192-219 for one year: normalize, reconstruct, check the 28-row
plausibility floor, validate and aggregate. -/
def processYearPage (year : Int) (page : Str) (acc : RunAcc) : Except PErr RunAcc :=
  let day_rows := parse_wrapped_day_rows (pageLines page)
  if day_rows.length < 28 then .error (.reconstructionErr year day_rows.length)
  else processRows year day_rows acc

/-! ## Formatting (Python fixed-point `%.Nf`) -/

/-- Round to the nearest integer, ties to even (the rounding of Python's
fixed-point float formatting). -/
def roundHalfEven (x : ℚ) : Int :=
  let n := ⌊x⌋
  let r := x - (n : ℚ)
  if r > 1 / 2 then n + 1
  else if r < 1 / 2 then n
  else if n % 2 = 0 then n else n + 1

/-- Exactly `d` decimal digits of `n` (most significant first, zero padded),
for `n` below the `d`-th power of ten. -/
def fracDigits : Nat → Nat → Str
  | 0, _ => []
  | d + 1, n => Char.ofNat (48 + n / 10 ^ d % 10) :: fracDigits d n

/-- Decimal digits of a natural number. -/
def natToChars (n : Nat) : Str := Nat.toDigits 10 n

/-- Decimal rendering of an integer (Python `str`). -/
def intToChars (i : Int) : Str :=
  if i < 0 then '-' :: natToChars i.natAbs else natToChars i.toNat

/-- Python fixed-point formatting with `d` digits after the point, on the
exact rational model of the value. -/
def formatFixed (d : Nat) (q : ℚ) : Str :=
  let scaled := (roundHalfEven (|q| * (10 : ℚ) ^ d)).toNat
  let sign : Str := if q < 0 then ['-'] else []
  sign ++ natToChars (scaled / 10 ^ d) ++
    (if d = 0 then [] else '.' :: fracDigits d (scaled % 10 ^ d))

/-- `month` zero-padded to two digits (Python `{month:02d}` for the values
used here). -/
def pad2 (m : Nat) : Str :=
  if m < 10 then '0' :: natToChars m else natToChars m

/-! ## Fetcher (`build_params`, `fetch_year_html`, lines 38-54, 134-150) -/

/-- `build_params` (lines 38-54): validates the tz sign, then builds the
query parameters of the request. -/
def build_params (year : Int) (tz_hours : ℚ) (tz_sign : Int) (tz_label : Str) :
    Except PErr (List (Str × Str)) :=
  if tz_sign ≠ -1 ∧ tz_sign ≠ 1 then .error .configBadTzSign
  else
    .ok [ (['s','u','b','m','i','t'], ['G','e','t',' ','D','a','t','a'])
        , (['t','a','s','k'], ['0','0'])
        , (['t','z'], formatFixed 2 tz_hours)
        , (['t','z','_','l','a','b','e','l'], tz_label)
        , (['t','z','_','s','i','g','n'], intToChars tz_sign)
        , (['y','e','a','r'], intToChars year) ]

/-- The attempt loop of `fetch_year_html` (lines 137-150).  `oracle a` is the
outcome of the `session.get` of attempt `a` (`some text` for a successful
response, `none` for a raised exception, which covers network errors and
`raise_for_status`).  Returns the result, the list of backoff sleeps
performed, and the number of requests issued.  The argument `remaining` is
the number of attempts still allowed; the loop starts with `attempt = 1` and
`backoff = 1.0`. -/
def fetchLoop (oracle : Nat → Option Str) :
    Nat → Nat → ℚ → Except Unit Str × List ℚ × Nat
  | 0, _, _ => (.error (), [], 0)
  | r + 1, attempt, backoff =>
    match oracle attempt with
    | some page => (.ok page, [], 1)
    | none =>
      if r = 0 then (.error (), [], 1)
      else
        let s := fetchLoop oracle r (attempt + 1) (min 16 (backoff * 2))
        (s.1, backoff :: s.2.1, s.2.2 + 1)

/-- `fetch_year_html` (lines 134-150): builds the parameters (which can fail
before any request is sent), then runs up to `retries` attempts with
exponential backoff sleeps between consecutive attempts. -/
def fetch_year_html (oracle : Nat → Option Str) (year : Int) (tz_hours : ℚ)
    (tz_sign : Int) (tz_label : Str) (retries : Nat := 5) :
    Except PErr Str × List ℚ × Nat :=
  match build_params year tz_hours tz_sign tz_label with
  | .error e => (.error e, [], 0)
  | .ok _ =>
    match fetchLoop oracle retries 1 1 with
    | (.ok page, sleeps, reqs) => (.ok page, sleeps, reqs)
    | (.error _, sleeps, reqs) => (.error (.fetchErr year), sleeps, reqs)

/-! ## Completeness check and writer (lines 223-242) -/

/-- `range(start, end + 1)`. -/
def yearsList (s e : Int) : List Int :=
  (List.range (e + 1 - s).toNat).map (fun (i : Nat) => s + (i : Int))

/-- The (year, month) pairs of the requested range in the program's loop
order: years ascending, months one to twelve within each year. -/
def monthPairs (s e : Int) : List (Int × Nat) :=
  (yearsList s e).flatMap (fun y => MONTHS.map (fun m => (y, m)))

/-- The completeness loop over a list of (year, month) pairs: the first pair
whose valid-day count differs from the calendar day count is fatal. -/
def completenessGo (acc : RunAcc) : List (Int × Nat) → Except PErr Unit
  | [] => .ok ()
  | (y, m) :: rest =>
    if acc.n (y, m) ≠ daysInMonth y m then
      .error (.completenessErr y m (daysInMonth y m) (acc.n (y, m)))
    else completenessGo acc rest

/-- Lines 223-231: the completeness check across the whole requested range. -/
def completenessCheck (s e : Int) (acc : RunAcc) : Except PErr Unit :=
  completenessGo acc (monthPairs s e)

/-- The header line written on line 236. -/
def headerRow : Str :=
  "year_month,year,month,moon_fracillum_mean,n_days,tz_hours,tz_sign,state".toList

/-- One data row of the output (line 242). -/
def csvRow (acc : RunAcc) (tz_hours : ℚ) (tz_sign : Int) (state : Str)
    (p : Int × Nat) : Str :=
  let n := acc.n p
  let mean := acc.sum p / (n : ℚ)
  intToChars p.1 ++ ['-'] ++ pad2 p.2 ++ [','] ++ intToChars p.1 ++ [','] ++
    natToChars p.2 ++ [','] ++ formatFixed 6 mean ++ [','] ++ natToChars n ++
    [','] ++ formatFixed 2 tz_hours ++ [','] ++ intToChars tz_sign ++ [','] ++ state

/-- Lines 233-242: the output file as a list of lines, one data row per
(year, month) of the requested range in loop order. -/
def writeOutput (s e : Int) (acc : RunAcc) (tz_hours : ℚ) (tz_sign : Int)
    (state : Str) : List Str :=
  headerRow :: (monthPairs s e).map (csvRow acc tz_hours tz_sign state)

/-- Lines 223-242: completeness check, then (only if it passes) the output. -/
def finalizeRun (s e : Int) (acc : RunAcc) (tz_hours : ℚ) (tz_sign : Int)
    (state : Str) : Except PErr (List Str) :=
  match completenessCheck s e acc with
  | .error e' => .error e'
  | .ok _ => .ok (writeOutput s e acc tz_hours tz_sign state)

/-! ## The whole run (`main`, lines 153-247) -/

/-- The command-line arguments relevant to the pipeline. -/
structure Args where
  start : Int
  end_ : Int
  state : Option Str
  tz_hours : ℚ
  tz_sign : Int
  tz_label : Str

/-- `STATE_TZ` (lines 33-35) and the timezone resolution of lines 172-183. -/
def resolveTz (args : Args) : Except PErr (ℚ × Int × Str × Str) :=
  match args.state with
  | some st =>
    let stU := (pyStrip st).map Char.toUpper
    if stU = ['A', 'L'] then .ok (6, -1, ['t','r','u','e'], stU)
    else .error .configUnknownState
  | none => .ok (args.tz_hours, args.tz_sign, args.tz_label, [])

/-- The year loop of `main` (lines 189-221): fetch, normalize, reconstruct,
validate, aggregate, one year at a time, threading the accumulators and
counting the requests issued. -/
def yearsLoop (oracle : Int → Nat → Option Str) (tzh : ℚ) (tzs : Int) (tzl : Str) :
    List Int → RunAcc → Except PErr RunAcc × Nat
  | [], acc => (.ok acc, 0)
  | y :: ys, acc =>
    let f := fetch_year_html (oracle y) y tzh tzs tzl 5
    match f.1 with
    | .error e => (.error e, f.2.2)
    | .ok page =>
      match processYearPage y page acc with
      | .error e => (.error e, f.2.2)
      | .ok acc' =>
        let rest := yearsLoop oracle tzh tzs tzl ys acc'
        (rest.1, f.2.2 + rest.2)

/-- `main` (lines 153-247) as a function of the arguments and of an oracle
giving the outcome of each network request (year, attempt): the produced
output lines (or the fatal error) together with the total number of network
requests issued. -/
def mainRun (oracle : Int → Nat → Option Str) (args : Args) :
    Except PErr (List Str) × Nat :=
  if args.end_ < args.start then (.error .configEndBeforeStart, 0)
  else
    match resolveTz args with
    | .error e => (.error e, 0)
    | .ok (tzh, tzs, tzl, stLabel) =>
      match yearsLoop oracle tzh tzs tzl (yearsList args.start args.end_) acc0 with
      | (.error e, reqs) => (.error e, reqs)
      | (.ok acc, reqs) => (finalizeRun args.start args.end_ acc tzh tzs stLabel, reqs)

/-! ## Claims -/

/-- C2: during validation a value of exactly 0.0 and exactly 1.0 are both
accepted and accumulated; every retained value (at a real calendar date)
outside the unit interval immediately yields the fatal range error carrying
the year, month, day and value; an accepted value is added to the running sum
exactly, never rounded or clamped. -/
theorem C2_range_check (year : Int) (month day : Nat) (v : ℚ) (acc : RunAcc)
    (hdate : isRealDate year month day = true) :
    (0 ≤ v ∧ v ≤ 1 →
      processVal year month day (some v) acc = .ok (accumulate acc (year, month) v) ∧
      (accumulate acc (year, month) v).sum (year, month) = acc.sum (year, month) + v ∧
      (accumulate acc (year, month) v).n (year, month) = acc.n (year, month) + 1) ∧
    (¬ (0 ≤ v ∧ v ≤ 1) →
      processVal year month day (some v) acc = .error (.rangeErr year month day v)) := by
  constructor
  · intro hv
    refine ⟨by simp [processVal, hdate, hv], by simp [accumulate], by simp [accumulate]⟩
  · intro hv
    simp [processVal, hdate, hv]

theorem C2_range_check_witness :
    (processVal 2024 1 15 (some 0) acc0 = .ok (accumulate acc0 (2024, 1) 0)) ∧
    (processVal 2024 1 15 (some 1) acc0 = .ok (accumulate acc0 (2024, 1) 1)) ∧
    (processVal 2024 1 15 (some (10001 / 10000)) acc0 =
      .error (.rangeErr 2024 1 15 (10001 / 10000))) ∧
    (processVal 2024 1 15 (some (-1 / 10000)) acc0 =
      .error (.rangeErr 2024 1 15 (-1 / 10000))) :=
  ⟨((C2_range_check 2024 1 15 0 acc0 (by decide)).1 (by norm_num)).1,
   ((C2_range_check 2024 1 15 1 acc0 (by decide)).1 (by norm_num)).1,
   (C2_range_check 2024 1 15 (10001 / 10000) acc0 (by decide)).2 (by norm_num),
   (C2_range_check 2024 1 15 (-1 / 10000) acc0 (by decide)).2 (by norm_num)⟩

/-- C10: the calendar-validity check runs before the range check — a value at
a (year, month, day) that is not a real calendar date is silently skipped,
whatever the value, so it neither raises the range error nor reaches any
accumulator; and the two-digit day-start pattern can indeed emit day numbers
such as 00 or 32. -/
theorem C10_calendar_before_range (year : Int) (month day : Nat) (v : ℚ)
    (acc : RunAcc) (hdate : isRealDate year month day = false) :
    processVal year month day (some v) acc = .ok acc ∧
    dayStartMatch ['3', '2', ' ', '0', '.', '5'] = some (32, ['0', '.', '5']) ∧
    dayStartMatch ['0', '0', ' ', '0', '.', '5'] = some (0, ['0', '.', '5']) := by
  refine ⟨?_, by decide, by decide⟩
  simp [processVal, hdate]

theorem C10_calendar_before_range_witness :
    isRealDate 2024 2 30 = false ∧
    processVal 2024 2 30 (some 5) acc0 = .ok acc0 :=
  ⟨by decide, (C10_calendar_before_range 2024 2 30 5 acc0 (by decide)).1⟩

/-- C6 as stated is false: with every attempt failing transiently, fetch does
make exactly five attempts, but it sleeps only between consecutive attempts —
four sleeps of one, two, four and eight time units, a total of fifteen, not
approximately thirty-one; the sixteen-unit fifth sleep never happens. -/
theorem C6_counterexample :
    fetch_year_html (fun _ => none) 2020 6 (-1) [] 5 =
      (.error (.fetchErr 2020), [1, 2, 4, 8], 5) ∧
    ([1, 2, 4, 8] : List ℚ).sum = 15 ∧ ([1, 2, 4, 8] : List ℚ).sum ≠ 31 := by
  refine ⟨?_, by norm_num, by norm_num⟩
  simp only [fetch_year_html, build_params, fetchLoop]
  norm_num

/-- C6 amended: when every one of its attempts fails transiently, fetch makes
exactly five attempts (five requests issued) and sleeps an exponential
backoff between consecutive attempts starting at one time unit and doubling
each time, capped at sixteen — with five attempts the four sleeps are one,
two, four and eight time units, a worst-case total of fifteen time units of
backoff sleep, before raising the fatal fetch error for that year. -/
theorem C6_retry_backoff (oracle : Nat → Option Str) (year : Int) (tzh : ℚ)
    (tzl : Str) (hfail : ∀ a, oracle a = none) :
    fetch_year_html oracle year tzh (-1) tzl 5 =
      (.error (.fetchErr year), [1, 2, 4, 8], 5) ∧
    ([1, 2, 4, 8] : List ℚ).sum = 15 := by
  refine ⟨?_, by norm_num⟩
  simp only [fetch_year_html, build_params, fetchLoop, hfail]
  norm_num

theorem C6_retry_backoff_witness :
    fetch_year_html (fun _ => none) 2021 6 (-1) [] 5 =
      (.error (.fetchErr 2021), [1, 2, 4, 8], 5) :=
  (C6_retry_backoff (fun _ => none) 2021 6 [] (fun _ => rfl)).1

theorem yearsList_cons {s e : Int} (h : s ≤ e) :
    yearsList s e = s :: yearsList (s + 1) e := by
  have hk : (e + 1 - s).toNat = (e + 1 - (s + 1)).toNat + 1 := by omega
  simp only [yearsList, hk, List.range_succ_eq_map, List.map_cons, List.map_map]
  congr 1
  · simp
  · apply List.map_congr_left
    intro i _
    show s + ((i + 1 : Nat) : Int) = s + 1 + (i : Int)
    omega

/-- C8: every configuration error precedes all network activity — an end year
smaller than the start year, and (with no state given) a tz sign other than
minus one or plus one, each produce the configuration error with zero network
requests issued. -/
theorem C8_config_before_network (oracle : Int → Nat → Option Str) (args : Args) :
    (args.end_ < args.start → mainRun oracle args = (.error .configEndBeforeStart, 0)) ∧
    (args.start ≤ args.end_ → args.state = none → args.tz_sign ≠ -1 → args.tz_sign ≠ 1 →
      mainRun oracle args = (.error .configBadTzSign, 0)) := by
  constructor
  · intro h
    simp [mainRun, h]
  · intro hse hst hm1 hp1
    have hy := yearsList_cons hse
    have hnotlt : ¬ args.end_ < args.start := by omega
    simp only [mainRun, if_neg hnotlt, resolveTz, hst]
    rw [hy]
    simp [yearsLoop, fetch_year_html, build_params, hm1, hp1]

theorem C8_config_before_network_witness :
    mainRun (fun _ _ => some ['x']) ⟨2024, 2020, none, 6, -1, []⟩ =
      (.error .configEndBeforeStart, 0) ∧
    mainRun (fun _ _ => some ['x']) ⟨2020, 2024, none, 6, 0, []⟩ =
      (.error .configBadTzSign, 0) :=
  ⟨(C8_config_before_network (fun _ _ => some ['x']) ⟨2024, 2020, none, 6, -1, []⟩).1
      (by norm_num),
   (C8_config_before_network (fun _ _ => some ['x']) ⟨2020, 2024, none, 6, 0, []⟩).2
      (by norm_num) rfl (by norm_num) (by norm_num)⟩

theorem completenessGo_ok_iff (acc : RunAcc) (ps : List (Int × Nat)) :
    completenessGo acc ps = .ok () ↔ ∀ p ∈ ps, acc.n p = daysInMonth p.1 p.2 := by
  induction ps with
  | nil => simp [completenessGo]
  | cons p rest ih =>
    obtain ⟨y, m⟩ := p
    by_cases h : acc.n (y, m) ≠ daysInMonth y m
    · simp [completenessGo, h]
    · push_neg at h
      simp [completenessGo, h, ih]

theorem completenessGo_cases (acc : RunAcc) (ps : List (Int × Nat)) :
    completenessGo acc ps = .ok () ∨
    ∃ y m, completenessGo acc ps =
        .error (.completenessErr y m (daysInMonth y m) (acc.n (y, m))) ∧
      acc.n (y, m) ≠ daysInMonth y m := by
  induction ps with
  | nil => exact Or.inl rfl
  | cons p rest ih =>
    obtain ⟨y, m⟩ := p
    by_cases h : acc.n (y, m) ≠ daysInMonth y m
    · exact Or.inr ⟨y, m, by simp [completenessGo, h], h⟩
    · push_neg at h
      rcases ih with hok | ⟨y', m', herr, hne⟩
      · exact Or.inl (by simp [completenessGo, h, hok])
      · exact Or.inr ⟨y', m', by simp [completenessGo, h, herr], hne⟩

/-- C1: a monthly summary row is emitted only when, for every (year, month)
pair of the requested range, the accumulated valid-day count equals that
month's calendar day count; any mismatch, in either direction, makes the run
end in the fatal completeness error (carrying the expected and observed
counts) with no output produced. -/
theorem C1_completeness_gate (s e : Int) (acc : RunAcc) (tzh : ℚ) (tzs : Int)
    (st : Str) :
    (∀ out, finalizeRun s e acc tzh tzs st = .ok out →
      ∀ p ∈ monthPairs s e, acc.n p = daysInMonth p.1 p.2) ∧
    (∀ p ∈ monthPairs s e, acc.n p ≠ daysInMonth p.1 p.2 →
      ∃ y m, finalizeRun s e acc tzh tzs st =
          .error (.completenessErr y m (daysInMonth y m) (acc.n (y, m))) ∧
        acc.n (y, m) ≠ daysInMonth y m) := by
  constructor
  · intro out hok
    rw [← completenessGo_ok_iff acc (monthPairs s e)]
    rcases completenessGo_cases acc (monthPairs s e) with hok' | ⟨y, m, herr, -⟩
    · exact hok'
    · rw [finalizeRun, completenessCheck, herr] at hok
      cases hok
  · intro p hp hne
    rcases completenessGo_cases acc (monthPairs s e) with hok' | ⟨y, m, herr, hne'⟩
    · exact absurd ((completenessGo_ok_iff acc (monthPairs s e)).mp hok' p hp) hne
    · exact ⟨y, m, by rw [finalizeRun, completenessCheck, herr], hne'⟩

/-- A leap-year accumulator with February one day short, for the witness. -/
def witAcc : RunAcc :=
  ⟨fun _ => 0, fun p => if p = (2020, 2) then 28 else daysInMonth p.1 p.2⟩

theorem C1_completeness_gate_witness :
    ((2020 : Int), 2) ∈ monthPairs 2020 2020 ∧
    witAcc.n (2020, 2) ≠ daysInMonth 2020 2 ∧
    daysInMonth 2020 2 = 29 ∧ witAcc.n (2020, 2) = 28 ∧
    (∃ y m, finalizeRun 2020 2020 witAcc 6 (-1) [] =
        .error (.completenessErr y m (daysInMonth y m) (witAcc.n (y, m))) ∧
      witAcc.n (y, m) ≠ daysInMonth y m) :=
  ⟨by decide, by decide, by decide, by decide,
   (C1_completeness_gate 2020 2020 witAcc 6 (-1) []).2 (2020, 2) (by decide) (by decide)⟩

theorem flush_emitted_length (day : Option Nat) (toks : List Str) :
    ∀ r ∈ (flush_if_complete day toks).2.2, r.2.length = 12 := by
  intro r hr
  cases day with
  | none => simp [flush_if_complete] at hr
  | some d =>
    simp only [flush_if_complete] at hr
    split at hr
    · rename_i h12
      simp only [List.mem_singleton] at hr
      subst hr
      simp only [List.length_map, List.length_take]
      omega
    · simp at hr

theorem parseWrappedGo_length (lines : List Str) :
    ∀ day toks r, r ∈ parseWrappedGo day toks lines → r.2.length = 12 := by
  induction lines with
  | nil => intro day toks r hr; simp [parseWrappedGo] at hr
  | cons ln rest ih =>
    intro day toks r hr
    simp only [parseWrappedGo] at hr
    split at hr
    · rcases List.mem_append.mp hr with hr' | hr'
      · exact flush_emitted_length _ _ r hr'
      · exact ih _ _ r hr'
    · split at hr
      · exact ih _ _ r hr
      · split at hr
        · exact ih _ _ r hr
        · rcases List.mem_append.mp hr with hr' | hr'
          · exact flush_emitted_length _ _ r hr'
          · exact ih _ _ r hr'

/-- C5: every reconstructed day record carries exactly twelve values; a
record with at least twelve collected tokens is flushed at once, keeping only
the first twelve tokens, and the placeholder token maps to a missing value. -/
theorem C5_twelve_values (lines : List Str) (d : Nat) (toks : List Str)
    (h12 : 12 ≤ toks.length) :
    (∀ r ∈ parse_wrapped_day_rows lines, r.2.length = 12) ∧
    flush_if_complete (some d) toks =
      (none, [], [(d, (toks.take 12).map tokToVal)]) ∧
    tokToVal ['-', '-'] = none := by
  refine ⟨fun r hr => parseWrappedGo_length lines none [] r hr, ?_, rfl⟩
  simp [flush_if_complete, h12]

theorem C5_twelve_values_witness :
    flush_if_complete (some 3) (List.replicate 13 ['0', '.', '5']) =
      (none, [], [(3, ((List.replicate 13 ['0', '.', '5']).take 12).map tokToVal)]) ∧
    (∀ r ∈ parse_wrapped_day_rows [['0', '1', ' ', '0', '.', '5']], r.2.length = 12) :=
  ⟨(C5_twelve_values [] 3 (List.replicate 13 ['0', '.', '5']) (by decide)).2.1,
   (C5_twelve_values [['0', '1', ' ', '0', '.', '5']] 3
      (List.replicate 13 ['0', '.', '5']) (by decide)).1⟩

/-- C3: when a day-start line is encountered while the open day record has
fewer than twelve tokens, the open record is discarded — parsing proceeds
exactly as if no record were open, so its tokens never reach any emitted row
or accumulator; an open record still incomplete at end-of-input is likewise
dropped, producing nothing and no error. -/
theorem C3_incomplete_discarded (d : Nat) (toks : List Str) (ln : Str)
    (rest : List Str) (_hlt : toks.length < 12) (p : Nat × Str)
    (hds : dayStartMatch ln = some p) :
    parseWrappedGo (some d) toks (ln :: rest) = parseWrappedGo none [] (ln :: rest) ∧
    parseWrappedGo (some d) toks [] = [] := by
  refine ⟨?_, rfl⟩
  simp only [parseWrappedGo, hds]

theorem C3_incomplete_discarded_witness :
    parseWrappedGo (some 5) [['0', '.', '1']] [['0', '7', ' ', '0', '.', '1']] =
      parseWrappedGo none [] [['0', '7', ' ', '0', '.', '1']] ∧
    parseWrappedGo (some 5) [['0', '.', '1']] [] = [] :=
  C3_incomplete_discarded 5 [['0', '.', '1']] ['0', '7', ' ', '0', '.', '1'] []
    (by decide) (7, ['0', '.', '1']) (by decide)

theorem parseWrappedGo_none_skips (cs : List Str) :
    ∀ toks, (∀ c ∈ cs, dayStartMatch c = none) →
    parseWrappedGo none toks cs = [] := by
  induction cs with
  | nil => intro toks _; rfl
  | cons c rest ih =>
    intro toks h
    simp only [parseWrappedGo, h c (by simp)]
    exact ih toks (fun c' hc' => h c' (by simp [hc']))

theorem parseWrappedGo_cont (cs : List Str) :
    ∀ d toks, toks.length < 12 → (∀ c ∈ cs, dayStartMatch c = none) →
    parseWrappedGo (some d) toks cs =
      if 12 ≤ toks.length + (cs.flatMap tokenFindall).length then
        [(d, ((toks ++ cs.flatMap tokenFindall).take 12).map tokToVal)]
      else [] := by
  induction cs with
  | nil =>
    intro d toks hlt _
    rw [if_neg (by simpa using hlt)]
    rfl
  | cons c cs ih =>
    intro d toks hlt hall
    have hc : dayStartMatch c = none := hall c (by simp)
    have hall' : ∀ c' ∈ cs, dayStartMatch c' = none :=
      fun c' hc' => hall c' (by simp [hc'])
    simp only [parseWrappedGo, hc]
    by_cases hmore : (tokenFindall c).isEmpty
    · rw [if_pos hmore]
      rw [ih d toks hlt hall']
      have he : tokenFindall c = [] := List.isEmpty_iff.mp hmore
      simp [he]
    · rw [if_neg hmore]
      by_cases h12 : 12 ≤ (toks ++ tokenFindall c).length
      · have h12' : 12 ≤ toks.length + (tokenFindall c).length := by simpa using h12
        have hflush : flush_if_complete (some d) (toks ++ tokenFindall c) =
            (none, [], [(d, ((toks ++ tokenFindall c).take 12).map tokToVal)]) := by
          simp [flush_if_complete, h12']
        rw [hflush]
        simp only [parseWrappedGo_none_skips cs [] hall', List.append_nil]
        have hcond : 12 ≤ toks.length + ((c :: cs).flatMap tokenFindall).length := by
          simp only [List.flatMap_cons, List.length_append] at h12 ⊢
          omega
        rw [if_pos hcond]
        have htake : ((toks ++ (c :: cs).flatMap tokenFindall).take 12) =
            ((toks ++ tokenFindall c).take 12) := by
          rw [List.flatMap_cons, ← List.append_assoc]
          exact List.take_append_of_le_length h12
        rw [htake]
      · have h12' : ¬ 12 ≤ toks.length + (tokenFindall c).length := by simpa using h12
        have hflush : flush_if_complete (some d) (toks ++ tokenFindall c) =
            (some d, toks ++ tokenFindall c, []) := by
          simp [flush_if_complete, h12']
        rw [hflush]
        simp only [List.nil_append]
        have hlt' : (toks ++ tokenFindall c).length < 12 := Nat.lt_of_not_le h12
        rw [ih d (toks ++ tokenFindall c) hlt' hall']
        simp only [List.flatMap_cons, List.length_append, ← List.append_assoc,
          Nat.add_assoc]

/-- C4: a day whose twelve tokens are split between the day-start line and
any number of following continuation lines yields exactly the same single
complete day record as when all twelve tokens appear on the day-start line
itself. -/
theorem C4_wrapped_equals_inline (l1 : Str) (cs : List Str) (l' : Str)
    (d : Nat) (tl tl' : Str)
    (h1 : dayStartMatch l1 = some (d, tl))
    (hcs : ∀ c ∈ cs, dayStartMatch c = none)
    (h' : dayStartMatch l' = some (d, tl'))
    (htok : tokenFindall tl' = tokenFindall tl ++ cs.flatMap tokenFindall)
    (h12 : (tokenFindall tl ++ cs.flatMap tokenFindall).length = 12) :
    parse_wrapped_day_rows (l1 :: cs) = parse_wrapped_day_rows [l'] ∧
    parse_wrapped_day_rows [l'] =
      [(d, (tokenFindall tl ++ cs.flatMap tokenFindall).map tokToVal)] := by
  have hsingle : parse_wrapped_day_rows [l'] =
      [(d, (tokenFindall tl ++ cs.flatMap tokenFindall).map tokToVal)] := by
    simp only [parse_wrapped_day_rows, parseWrappedGo, h', htok]
    have : flush_if_complete (some d) (tokenFindall tl ++ cs.flatMap tokenFindall) =
        (none, [],
          [(d, ((tokenFindall tl ++ cs.flatMap tokenFindall).take 12).map tokToVal)]) := by
      simp [flush_if_complete, h12]
    rw [this, List.take_of_length_le (le_of_eq h12)]
    rfl
  refine ⟨?_, hsingle⟩
  rw [hsingle]
  simp only [parse_wrapped_day_rows, parseWrappedGo, h1]
  by_cases hbig : 12 ≤ (tokenFindall tl).length
  · have hlen : (tokenFindall tl).length = 12 ∧ (cs.flatMap tokenFindall).length = 0 := by
      simp only [List.length_append] at h12
      omega
    have hflush : flush_if_complete (some d) (tokenFindall tl) =
        (none, [], [(d, ((tokenFindall tl).take 12).map tokToVal)]) := by
      simp [flush_if_complete, hbig]
    rw [hflush]
    simp only [parseWrappedGo_none_skips cs [] hcs, List.append_nil]
    rw [List.take_of_length_le (le_of_eq hlen.1)]
    have : cs.flatMap tokenFindall = [] := List.length_eq_zero.mp hlen.2
    simp [this]
  · have hlt : (tokenFindall tl).length < 12 := Nat.lt_of_not_le hbig
    have hflush : flush_if_complete (some d) (tokenFindall tl) =
        (some d, tokenFindall tl, []) := by
      simp [flush_if_complete, hbig]
    rw [hflush]
    simp only [List.nil_append]
    rw [parseWrappedGo_cont cs d (tokenFindall tl) hlt hcs]
    rw [if_pos (by simp only [List.length_append] at h12; omega)]
    rw [List.take_of_length_le (le_of_eq h12)]

theorem C4_wrapped_equals_inline_witness :
    parse_wrapped_day_rows [ ("01 0.1 0.2 0.3 0.4").toList,
        ("0.5 0.6 0.7 0.8").toList, ("0.9 1.0 0.11 0.12").toList ] =
      parse_wrapped_day_rows
        [ ("01 0.1 0.2 0.3 0.4 0.5 0.6 0.7 0.8 0.9 1.0 0.11 0.12").toList ] :=
  (C4_wrapped_equals_inline ("01 0.1 0.2 0.3 0.4").toList
    [ ("0.5 0.6 0.7 0.8").toList, ("0.9 1.0 0.11 0.12").toList ]
    ("01 0.1 0.2 0.3 0.4 0.5 0.6 0.7 0.8 0.9 1.0 0.11 0.12").toList
    1 ("0.1 0.2 0.3 0.4").toList
    ("0.1 0.2 0.3 0.4 0.5 0.6 0.7 0.8 0.9 1.0 0.11 0.12").toList
    (by decide) (by decide) (by decide) (by decide) (by decide)).1

/-- Strict ascending order on (year, month) keys. -/
def pairLt (a b : Int × Nat) : Prop :=
  a.1 < b.1 ∨ (a.1 = b.1 ∧ a.2 < b.2)

theorem yearsList_pairwise (s e : Int) : (yearsList s e).Pairwise (· < ·) := by
  unfold yearsList
  refine List.Pairwise.map _ ?_ (List.pairwise_lt_range _)
  intro a b hab
  omega

theorem flatMap_months_pairwise (ys : List Int) (hys : ys.Pairwise (· < ·)) :
    (ys.flatMap (fun y => MONTHS.map (fun m => (y, m)))).Pairwise pairLt := by
  induction ys with
  | nil => simp
  | cons y t ih =>
    rw [List.pairwise_cons] at hys
    obtain ⟨hy, ht⟩ := hys
    simp only [List.flatMap_cons]
    apply List.pairwise_append.mpr
    refine ⟨?_, ih ht, ?_⟩
    · apply List.pairwise_map.mpr
      have hm : List.Pairwise (· < ·) MONTHS := by decide
      exact hm.imp (fun hab => Or.inr ⟨rfl, hab⟩)
    · intro a ha b hb
      obtain ⟨m, -, rfl⟩ := List.mem_map.mp ha
      obtain ⟨y', hy', m', -, rfl⟩ := by
        simpa using List.mem_flatMap.mp hb
      exact Or.inl (hy y' hy')

theorem monthPairs_pairwise (s e : Int) : (monthPairs s e).Pairwise pairLt :=
  flatMap_months_pairwise (yearsList s e) (yearsList_pairwise s e)

theorem monthPairs_mem (s e : Int) (p : Int × Nat) :
    p ∈ monthPairs s e ↔ s ≤ p.1 ∧ p.1 ≤ e ∧ 1 ≤ p.2 ∧ p.2 ≤ 12 := by
  obtain ⟨y, m⟩ := p
  simp only [monthPairs, yearsList, List.mem_flatMap, List.mem_map,
    List.mem_range, MONTHS]
  constructor
  · rintro ⟨y', ⟨⟨i, hi, rfl⟩, m', hm', hmk⟩⟩
    obtain ⟨rfl, rfl⟩ := Prod.mk.injEq .. ▸ hmk
    fin_cases hm' <;> simp <;> omega
  · rintro ⟨hsy, hye, hm1, hm12⟩
    refine ⟨y, ⟨⟨(y - s).toNat, by omega, by omega⟩, m, ?_, rfl⟩⟩
    interval_cases m <;> simp

theorem monthPairs_length (s e : Int) :
    (monthPairs s e).length = 12 * (e + 1 - s).toNat := by
  unfold monthPairs
  rw [List.length_flatMap]
  calc ((yearsList s e).map fun y => (MONTHS.map fun m => (y, m)).length).sum
      = ((yearsList s e).map fun _ => 12).sum := by
        apply congrArg
        exact List.map_congr_left (fun y _ => by simp [MONTHS])
    _ = 12 * (yearsList s e).length := by
        rw [List.map_const', List.sum_replicate, smul_eq_mul, Nat.mul_comm]
    _ = 12 * (e + 1 - s).toNat := by simp [yearsList]

/-- Count of characters after the last dot of a formatted string. -/
def decimalsAfterDot (s : Str) : Nat :=
  (s.reverse.takeWhile (fun c => c != '.')).length

theorem fracDigits_length (d n : Nat) : (fracDigits d n).length = d := by
  induction d generalizing n with
  | zero => rfl
  | succ d ih => simp [fracDigits, ih]

theorem fracDigits_ne_dot (d n : Nat) : ∀ c ∈ fracDigits d n, (c != '.') = true := by
  induction d generalizing n with
  | zero => simp [fracDigits]
  | succ d ih =>
    intro c hc
    simp only [fracDigits, List.mem_cons] at hc
    rcases hc with rfl | hc
    · have h10 : n / 10 ^ d % 10 < 10 := Nat.mod_lt _ (by norm_num)
      interval_cases h : (n / 10 ^ d % 10) <;> decide
    · exact ih n c hc

theorem takeWhile_append_all {p : Char → Bool} {a b : Str}
    (h : ∀ c ∈ a, p c = true) : (a ++ b).takeWhile p = a ++ b.takeWhile p := by
  induction a with
  | nil => simp
  | cons c t ih =>
    simp only [List.cons_append, List.takeWhile_cons, h c (by simp), ite_true]
    rw [ih (fun c' hc' => h c' (by simp [hc']))]

theorem decimals_helper (sign ip : Str) (d n : Nat) :
    decimalsAfterDot (sign ++ ip ++ '.' :: fracDigits d n) = d := by
  unfold decimalsAfterDot
  have hrev : (sign ++ ip ++ '.' :: fracDigits d n).reverse =
      (fracDigits d n).reverse ++ '.' :: (ip.reverse ++ sign.reverse) := by
    simp [List.reverse_append, List.reverse_cons, List.append_assoc]
  rw [hrev, takeWhile_append_all (fun c hc => fracDigits_ne_dot d n c
    (List.mem_reverse.mp hc))]
  simp [fracDigits_length, List.takeWhile_cons]

theorem formatFixed_decimals (d : Nat) (q : ℚ) (hd : d ≠ 0) :
    decimalsAfterDot (formatFixed d q) = d := by
  have hform : formatFixed d q = (if q < 0 then ['-'] else []) ++
      natToChars ((roundHalfEven (|q| * (10 : ℚ) ^ d)).toNat / 10 ^ d) ++
      '.' :: fracDigits d ((roundHalfEven (|q| * (10 : ℚ) ^ d)).toNat % 10 ^ d) := by
    simp only [formatFixed, if_neg hd]
  rw [hform, decimals_helper]

/-- The per-(year, month) aggregation as a fold of `accumulate` over a list
of observations. -/
def aggregateObs (obs : List ((Int × Nat) × ℚ)) : RunAcc :=
  obs.foldl (fun acc ov => accumulate acc ov.1 ov.2) acc0

theorem accumulate_comm (acc : RunAcc) (k1 k2 : Int × Nat) (v1 v2 : ℚ) :
    accumulate (accumulate acc k1 v1) k2 v2 =
      accumulate (accumulate acc k2 v2) k1 v1 := by
  unfold accumulate
  congr 1 <;> funext k
  · by_cases h1 : k = k1 <;> by_cases h2 : k = k2
    · subst h1
      subst h2
      simp
      ring
    · subst h1
      simp [h2]
    · subst h2
      simp [h1]
    · simp [h1, h2]
  · by_cases h1 : k = k1 <;> by_cases h2 : k = k2
    · subst h1
      subst h2
      simp
    · subst h1
      simp [h2]
    · subst h2
      simp [h1]
    · simp [h1, h2]

theorem foldl_accumulate_perm {l1 l2 : List ((Int × Nat) × ℚ)} (h : l1.Perm l2) :
    ∀ acc, l1.foldl (fun acc ov => accumulate acc ov.1 ov.2) acc =
      l2.foldl (fun acc ov => accumulate acc ov.1 ov.2) acc := by
  induction h with
  | nil => intro acc; rfl
  | cons x _ ih => intro acc; simp only [List.foldl_cons]; exact ih _
  | swap x y l =>
    intro acc
    simp only [List.foldl_cons]
    rw [accumulate_comm]
  | trans _ _ ih1 ih2 => intro acc; rw [ih1 acc, ih2 acc]

/-- C9: on success the output is the exact header line followed by exactly
one data row per (year, month) pair of the requested range — twelve months
per year, keys strictly ascending — with the mean formatted to six decimal
places and the tz hours to two; and the accumulators (hence the rows) do not
depend on the order in which the observations were accumulated. -/
theorem C9_output_format (s e : Int) (acc : RunAcc) (tzh : ℚ) (tzs : Int)
    (st : Str) (l1 l2 : List ((Int × Nat) × ℚ)) (hperm : l1.Perm l2) :
    (writeOutput s e acc tzh tzs st).head? =
      some ("year_month,year,month,moon_fracillum_mean,n_days,tz_hours,tz_sign,state".toList) ∧
    (writeOutput s e acc tzh tzs st).length = 1 + 12 * (e + 1 - s).toNat ∧
    (writeOutput s e acc tzh tzs st).tail =
      (monthPairs s e).map (csvRow acc tzh tzs st) ∧
    (monthPairs s e).Pairwise pairLt ∧
    (∀ p : Int × Nat, p ∈ monthPairs s e ↔
      s ≤ p.1 ∧ p.1 ≤ e ∧ 1 ≤ p.2 ∧ p.2 ≤ 12) ∧
    (∀ q : ℚ, decimalsAfterDot (formatFixed 6 q) = 6) ∧
    (∀ q : ℚ, decimalsAfterDot (formatFixed 2 q) = 2) ∧
    aggregateObs l1 = aggregateObs l2 := by
  refine ⟨rfl, ?_, rfl, monthPairs_pairwise s e, monthPairs_mem s e,
    fun q => formatFixed_decimals 6 q (by norm_num),
    fun q => formatFixed_decimals 2 q (by norm_num),
    foldl_accumulate_perm hperm acc0⟩
  simp [writeOutput, monthPairs_length, Nat.add_comm]

theorem C9_output_format_witness :
    (monthPairs 2020 2021).Pairwise pairLt ∧
    aggregateObs [((2020, 1), 1 / 2), ((2020, 2), 1 / 4)] =
      aggregateObs [((2020, 2), 1 / 4), ((2020, 1), 1 / 2)] :=
  ⟨(C9_output_format 2020 2021 acc0 6 (-1) [] [] [] (List.Perm.refl [])).2.2.2.1,
   (C9_output_format 2020 2021 acc0 6 (-1) []
      [((2020, 1), 1 / 2), ((2020, 2), 1 / 4)]
      [((2020, 2), 1 / 4), ((2020, 1), 1 / 2)]
      (List.Perm.swap _ _ _)).2.2.2.2.2.2.2⟩

/-! ## C7: the normalizer preserves cell and row boundaries

The input family: a page rendering a table of values, one table row per data
row, one cell per value, where values are plain decimal text (digit or dot
characters).  The theorem computes the normalizer's output on every such page
and shows values in distinct cells stay space-separated on one line and
distinct rows end up on distinct lines. -/

/-- Characters allowed in a rendered table value: decimal digits and the
dot. -/
def safeChar (c : Char) : Bool :=
  (48 ≤ c.toNat && c.toNat ≤ 57) || c.toNat == 46

theorem charOfNat_toNat (n : Nat) (hv : n.isValidChar) : (Char.ofNat n).toNat = n := by
  simp [Char.ofNat, hv, Char.ofNatAux, Char.toNat, UInt32.toNat]

theorem toNat_inj_ne {c d : Char} (h : c.toNat ≠ d.toNat) : c ≠ d :=
  fun he => h (he ▸ rfl)

theorem safeChar_toNat {c : Char} (h : safeChar c = true) :
    (48 ≤ c.toNat ∧ c.toNat ≤ 57) ∨ c.toNat = 46 := by
  unfold safeChar at h
  rcases Bool.or_eq_true_iff.mp h with h' | h'
  · left
    simpa using h'
  · right
    simpa using h'

theorem safe_facts {c : Char} (h : safeChar c = true) :
    c ≠ '<' ∧ c ≠ '&' ∧ c ≠ '\r' ∧ c ≠ '\n' ∧ isBlank c = false ∧
      isPySpace c = false := by
  have hn := safeChar_toNat h
  have h60 : ('<').toNat = 60 := by decide
  have h38 : ('&').toNat = 38 := by decide
  have h13 : ('\r').toNat = 13 := by decide
  have h10 : ('\n').toNat = 10 := by decide
  have h32 : (' ').toNat = 32 := by decide
  have h9 : ('\t').toNat = 9 := by decide
  have h11 : ('\x0b').toNat = 11 := by decide
  have h12 : ('\x0c').toNat = 12 := by decide
  refine ⟨toNat_inj_ne (by omega), toNat_inj_ne (by omega), toNat_inj_ne (by omega),
    toNat_inj_ne (by omega), ?_, ?_⟩
  · unfold isBlank
    have hs : c ≠ ' ' := toNat_inj_ne (by omega)
    have ht : c ≠ '\t' := toNat_inj_ne (by omega)
    simp [hs, ht]
  · unfold isPySpace
    have h1 : c ≠ ' ' := toNat_inj_ne (by omega)
    have h2 : c ≠ '\t' := toNat_inj_ne (by omega)
    have h3 : c ≠ '\n' := toNat_inj_ne (by omega)
    have h4 : c ≠ '\r' := toNat_inj_ne (by omega)
    have h5 : c ≠ '\x0b' := toNat_inj_ne (by omega)
    have h6 : c ≠ '\x0c' := toNat_inj_ne (by omega)
    simp [h1, h2, h3, h4, h5, h6]

theorem toLower_ne_lt {c : Char} (h : c ≠ '<') : (c.toLower == '<'.toLower) = false := by
  have hlt : ('<').toLower = '<' := by decide
  rw [hlt, beq_eq_false_iff_ne]
  unfold Char.toLower
  simp only []
  by_cases hin : c.toNat ≥ 65 ∧ c.toNat ≤ 90
  · rw [if_pos hin]
    intro he
    have hv := charOfNat_toNat (c.toNat + 32) (Or.inl (by omega))
    rw [he] at hv
    have h60 : ('<').toNat = 60 := by decide
    omega
  · rw [if_neg hin]
    exact h

theorem ciStarts_lt_none {c : Char} (h : c ≠ '<') (ps cs : Str) :
    ciStarts ('<' :: ps) (c :: cs) = false := by
  have hl := toLower_ne_lt h
  simp only [ciStarts, hl, Bool.false_and]

/-! Head lemmas: each pass can only fire at its trigger character. -/

theorem stepUnescape_ne {c : Char} (h : c ≠ '&') (t : Str) :
    stepUnescape (c :: t) = none := by
  simp [stepUnescape, h]

theorem stepCellEnd_ne {c : Char} (h : c ≠ '<') (t : Str) :
    stepCellEnd (c :: t) = none := by
  simp [stepCellEnd, ciStarts_lt_none h]

theorem stepLit_ne {c : Char} (h : c ≠ '<') (ps rep : Str) (t : Str) :
    stepLit ('<' :: ps) rep (c :: t) = none := by
  simp [stepLit, ciStarts_lt_none h]

theorem stepLitCS_ne {c p0 : Char} (h : c ≠ p0) (ps rep : Str) (t : Str) :
    stepLitCS (p0 :: ps) rep (c :: t) = none := by
  have : ((p0 :: ps).isPrefixOf (c :: t)) = false := by
    simp [List.isPrefixOf, Ne.symm h]
  simp [stepLitCS, this]

theorem stepBr_ne {c : Char} (h : c ≠ '<') (t : Str) :
    stepBr (c :: t) = none := by
  simp [stepBr, ciStarts_lt_none h]

theorem stepBlock_ne {c : Char} (h : c ≠ '<') (ops closeTag : Str) (t : Str) :
    stepBlock ('<' :: ops) closeTag (c :: t) = none := by
  simp [stepBlock, blockTail, ciStarts_lt_none h]

theorem stepTag_ne {c : Char} (h : c ≠ '<') (t : Str) :
    stepTag (c :: t) = none := by
  cases t with
  | nil => simp [stepTag, h]
  | cons a t' =>
    simp only [stepTag]
    split
    · rename_i heq
      injection heq with h1 h2
      exact absurd h1 h
    · rfl

theorem stepSpaces_ne {c : Char} (h : isBlank c = false) (t : Str) :
    stepSpaces (c :: t) = none := by
  simp [stepSpaces, h]

theorem stepNewlines_ne {c : Char} (h : c ≠ '\n') (t : Str) :
    stepNewlines (c :: t) = none := by
  cases t with
  | nil => simp [stepNewlines, h]
  | cons a t' =>
    simp only [stepNewlines]
    split
    · rename_i heq
      injection heq with h1 h2
      exact absurd h1 h
    · rfl

/-! ### The rendered table and its intermediate forms -/

/-- One rendered table cell. -/
def cellHtml (c : Str) : Str := ['<', 't', 'd', '>'] ++ c ++ ['<', '/', 't', 'd', '>']

/-- One rendered table row. -/
def rowHtml (cs : List Str) : Str :=
  ['<', 't', 'r', '>'] ++ cs.flatMap cellHtml ++ ['<', '/', 't', 'r', '>']

/-- A rendered table page. -/
def tableHtml (rows : List (List Str)) : Str :=
  ['<', 't', 'a', 'b', 'l', 'e', '>'] ++ rows.flatMap rowHtml ++
    ['<', '/', 't', 'a', 'b', 'l', 'e', '>']

/-- After the cell-boundary pass: closing td became a space. -/
def cellT1 (c : Str) : Str := ['<', 't', 'd', '>'] ++ c ++ [' ']

def rowT1 (cs : List Str) : Str :=
  ['<', 't', 'r', '>'] ++ cs.flatMap cellT1 ++ ['<', '/', 't', 'r', '>']

def T1 (rows : List (List Str)) : Str :=
  ['<', 't', 'a', 'b', 'l', 'e', '>'] ++ rows.flatMap rowT1 ++
    ['<', '/', 't', 'a', 'b', 'l', 'e', '>']

/-- After the row-boundary pass: closing tr became a newline. -/
def rowT2 (cs : List Str) : Str := ['<', 't', 'r', '>'] ++ cs.flatMap cellT1 ++ ['\n']

def T2 (rows : List (List Str)) : Str :=
  ['<', 't', 'a', 'b', 'l', 'e', '>'] ++ rows.flatMap rowT2 ++
    ['<', '/', 't', 'a', 'b', 'l', 'e', '>']

/-- After tag stripping: only values, separating spaces and newlines. -/
def rowT3 (cs : List Str) : Str := cs.flatMap (fun c => c ++ [' ']) ++ ['\n']

def T3 (rows : List (List Str)) : Str := rows.flatMap rowT3

/-- Well-formed data: every row nonempty, every cell nonempty and made of
safe characters. -/
def CellsOk (r : List Str) : Prop :=
  r ≠ [] ∧ ∀ c ∈ r, c ≠ [] ∧ ∀ ch ∈ c, safeChar ch = true

def RowsOk (rows : List (List Str)) : Prop := ∀ r ∈ rows, CellsOk r

instance (r : List Str) : Decidable (CellsOk r) := by
  unfold CellsOk
  infer_instance

instance (rows : List (List Str)) : Decidable (RowsOk rows) := by
  unfold RowsOk
  infer_instance

/-- A tag neither rewritten nor entered by a pass: the head position fails,
the body has no angle bracket, and the pass fires only at angle brackets. -/
theorem rew_tag {step : Str → Option (Str × Str)} (body : Str)
    (hhead : ∀ r, step ('<' :: (body ++ r)) = none)
    (hb : body.all (fun c => c != '<') = true)
    (hstep : ∀ c, c ≠ '<' → ∀ t, step (c :: t) = none) :
    Rew step ('<' :: body) ('<' :: body) :=
  Rew.cons_none hhead (Rew.free (fun c hc t => hstep c
    (by have := List.all_eq_true.mp hb c hc; simpa using this) t))

theorem stage_cellEnd (rows : List (List Str)) (h : RowsOk rows) :
    scan stepCellEnd (tableHtml rows) = T1 rows := by
  apply Rew.scan_eq
  unfold tableHtml T1
  have hne : ∀ c, c ≠ '<' → ∀ t, stepCellEnd (c :: t) = none :=
    fun c hc t => stepCellEnd_ne hc t
  refine Rew.append (Rew.append (rew_tag ['t', 'a', 'b', 'l', 'e', '>']
    (fun r => by simp +decide [stepCellEnd, ciStarts])
    (by decide) hne) (Rew.flat ?_))
    (rew_tag ['/', 't', 'a', 'b', 'l', 'e', '>']
      (fun r => by simp +decide [stepCellEnd, ciStarts])
      (by decide) hne)
  intro r hr
  unfold rowHtml rowT1
  refine Rew.append (Rew.append (rew_tag ['t', 'r', '>']
    (fun r' => by simp +decide [stepCellEnd, ciStarts])
    (by decide) hne) (Rew.flat ?_))
    (rew_tag ['/', 't', 'r', '>']
      (fun r' => by simp +decide [stepCellEnd, ciStarts])
      (by decide) hne)
  intro c hc
  obtain ⟨-, hcells⟩ := h r hr
  obtain ⟨-, hsafe⟩ := hcells c hc
  unfold cellHtml cellT1
  refine Rew.append (Rew.append (rew_tag ['t', 'd', '>']
    (fun r' => by simp +decide [stepCellEnd, ciStarts])
    (by decide) hne)
    (Rew.free (fun ch hch t => hne ch (safe_facts (hsafe ch hch)).1 t))) ?_
  exact Rew.of_match stepCellEnd_shrinks (by simp)
    (fun r' => by simp +decide [stepCellEnd, ciStarts])

/-- A literal segment with no angle bracket passes any bracket-triggered
step unchanged. -/
theorem rew_free_lits {step : Str → Option (Str × Str)} (l : Str)
    (hb : l.all (fun c => c != '<') = true)
    (hstep : ∀ c, c ≠ '<' → ∀ t, step (c :: t) = none) : Rew step l l :=
  Rew.free (fun c hc t => hstep c
    (by have := List.all_eq_true.mp hb c hc; simpa using this) t)

/-- A safe-character segment passes any bracket-triggered step unchanged. -/
theorem rew_free_safe {step : Str → Option (Str × Str)} (s : Str)
    (hs : ∀ ch ∈ s, safeChar ch = true)
    (hstep : ∀ c, c ≠ '<' → ∀ t, step (c :: t) = none) : Rew step s s :=
  Rew.free (fun c hc t => hstep c (safe_facts (hs c hc)).1 t)

theorem stage_tr (rows : List (List Str)) (h : RowsOk rows) :
    scan (stepLit ['<', '/', 't', 'r', '>'] ['\n']) (T1 rows) = T2 rows := by
  apply Rew.scan_eq
  unfold T1 T2
  have hne : ∀ c, c ≠ '<' → ∀ t,
      stepLit ['<', '/', 't', 'r', '>'] ['\n'] (c :: t) = none :=
    fun c hc t => stepLit_ne hc _ _ t
  refine Rew.append (Rew.append (rew_tag ['t', 'a', 'b', 'l', 'e', '>']
    (fun r => by simp +decide [stepLit, ciStarts]) (by decide) hne) (Rew.flat ?_))
    (rew_tag ['/', 't', 'a', 'b', 'l', 'e', '>']
      (fun r => by simp +decide [stepLit, ciStarts]) (by decide) hne)
  intro r hr
  unfold rowT1 rowT2
  refine Rew.append (Rew.append (rew_tag ['t', 'r', '>']
    (fun r' => by simp +decide [stepLit, ciStarts]) (by decide) hne) (Rew.flat ?_))
    (Rew.of_match (stepLit_shrinks _ _) (by simp)
      (fun r' => by simp +decide [stepLit, ciStarts]))
  intro c hc
  obtain ⟨-, hcells⟩ := h r hr
  obtain ⟨-, hsafe⟩ := hcells c hc
  unfold cellT1
  exact Rew.append (Rew.append (rew_tag ['t', 'd', '>']
    (fun r' => by simp +decide [stepLit, ciStarts]) (by decide) hne)
    (rew_free_safe c hsafe hne)) (rew_free_lits [' '] (by decide) hne)

/-- The no-op passes on the intermediate form: br, closing p, script and
style never fire anywhere in it. -/
theorem stage_noop (step : Str → Option (Str × Str)) (rows : List (List Str))
    (h : RowsOk rows)
    (hne : ∀ c, c ≠ '<' → ∀ t, step (c :: t) = none)
    (ht : ∀ r, step ('<' :: (['t', 'a', 'b', 'l', 'e', '>'] ++ r)) = none)
    (hct : ∀ r, step ('<' :: (['/', 't', 'a', 'b', 'l', 'e', '>'] ++ r)) = none)
    (htr : ∀ r, step ('<' :: (['t', 'r', '>'] ++ r)) = none)
    (htd : ∀ r, step ('<' :: (['t', 'd', '>'] ++ r)) = none) :
    scan step (T2 rows) = T2 rows := by
  apply Rew.scan_eq
  unfold T2
  refine Rew.append (Rew.append (rew_tag ['t', 'a', 'b', 'l', 'e', '>'] ht
    (by decide) hne) (Rew.flat ?_))
    (rew_tag ['/', 't', 'a', 'b', 'l', 'e', '>'] hct (by decide) hne)
  intro r hr
  unfold rowT2
  refine Rew.append (Rew.append (rew_tag ['t', 'r', '>'] htr (by decide) hne)
    (Rew.flat ?_)) (rew_free_lits ['\n'] (by decide) hne)
  intro c hc
  obtain ⟨-, hcells⟩ := h r hr
  obtain ⟨-, hsafe⟩ := hcells c hc
  unfold cellT1
  exact Rew.append (Rew.append (rew_tag ['t', 'd', '>'] htd (by decide) hne)
    (rew_free_safe c hsafe hne)) (rew_free_lits [' '] (by decide) hne)

theorem stage_br (rows : List (List Str)) (h : RowsOk rows) :
    scan stepBr (T2 rows) = T2 rows :=
  stage_noop stepBr rows h (fun c hc t => stepBr_ne hc t)
    (fun r => by simp +decide [stepBr, ciStarts])
    (fun r => by simp +decide [stepBr, ciStarts])
    (fun r => by simp +decide [stepBr, ciStarts])
    (fun r => by simp +decide [stepBr, ciStarts])

theorem stage_p (rows : List (List Str)) (h : RowsOk rows) :
    scan (stepLit ['<', '/', 'p', '>'] ['\n']) (T2 rows) = T2 rows :=
  stage_noop _ rows h (fun c hc t => stepLit_ne hc _ _ t)
    (fun r => by simp +decide [stepLit, ciStarts])
    (fun r => by simp +decide [stepLit, ciStarts])
    (fun r => by simp +decide [stepLit, ciStarts])
    (fun r => by simp +decide [stepLit, ciStarts])

theorem stage_script (rows : List (List Str)) (h : RowsOk rows) :
    scan (stepBlock ['<', 's', 'c', 'r', 'i', 'p', 't']
      ['<', '/', 's', 'c', 'r', 'i', 'p', 't', '>']) (T2 rows) = T2 rows :=
  stage_noop _ rows h (fun c hc t => stepBlock_ne hc _ _ t)
    (fun r => by simp +decide [stepBlock, blockTail, ciStarts])
    (fun r => by simp +decide [stepBlock, blockTail, ciStarts])
    (fun r => by simp +decide [stepBlock, blockTail, ciStarts])
    (fun r => by simp +decide [stepBlock, blockTail, ciStarts])

theorem stage_style (rows : List (List Str)) (h : RowsOk rows) :
    scan (stepBlock ['<', 's', 't', 'y', 'l', 'e']
      ['<', '/', 's', 't', 'y', 'l', 'e', '>']) (T2 rows) = T2 rows :=
  stage_noop _ rows h (fun c hc t => stepBlock_ne hc _ _ t)
    (fun r => by simp +decide [stepBlock, blockTail, ciStarts])
    (fun r => by simp +decide [stepBlock, blockTail, ciStarts])
    (fun r => by simp +decide [stepBlock, blockTail, ciStarts])
    (fun r => by simp +decide [stepBlock, blockTail, ciStarts])

theorem Rew.congr_out {step : Str → Option (Str × Str)} {s s' s'' : Str}
    (h : Rew step s s') (he : s' = s'') : Rew step s s'' := he ▸ h

theorem stage_tags (rows : List (List Str)) (h : RowsOk rows) :
    scan stepTag (T2 rows) = T3 rows := by
  have hne : ∀ c, c ≠ '<' → ∀ t, stepTag (c :: t) = none :=
    fun c hc t => stepTag_ne hc t
  have hrow : ∀ r ∈ rows, Rew stepTag (rowT2 r) (rowT3 r) := by
    intro r hr
    obtain ⟨-, hcells⟩ := h r hr
    have hcell : ∀ c ∈ r, Rew stepTag (cellT1 c) (c ++ [' ']) := by
      intro c hc
      obtain ⟨-, hsafe⟩ := hcells c hc
      have hc1 : Rew stepTag (cellT1 c) (([] ++ c) ++ [' ']) := by
        unfold cellT1
        exact Rew.append (Rew.append (Rew.of_match stepTag_shrinks (by simp)
          (fun r' => by simp +decide [stepTag, List.dropWhile, List.takeWhile]))
          (rew_free_safe c hsafe hne)) (rew_free_lits [' '] (by decide) hne)
      exact Rew.congr_out hc1 (by simp)
    have hr1 : Rew stepTag (rowT2 r)
        (([] ++ r.flatMap (fun c => c ++ [' '])) ++ ['\n']) := by
      unfold rowT2
      exact Rew.append (Rew.append (Rew.of_match stepTag_shrinks (by simp)
        (fun r' => by simp +decide [stepTag, List.dropWhile, List.takeWhile]))
        (Rew.flat hcell)) (rew_free_lits ['\n'] (by decide) hne)
    exact Rew.congr_out hr1 (by simp [rowT3])
  have hall : Rew stepTag (T2 rows) (T3 rows) := by
    have ha1 : Rew stepTag (T2 rows) (([] ++ rows.flatMap rowT3) ++ []) := by
      unfold T2
      exact Rew.append (Rew.append (Rew.of_match stepTag_shrinks (by simp)
        (fun r' => by simp +decide [stepTag, List.dropWhile, List.takeWhile]))
        (Rew.flat hrow))
        (Rew.of_match stepTag_shrinks (by simp)
          (fun r' => by simp +decide [stepTag, List.dropWhile, List.takeWhile]))
    exact Rew.congr_out ha1 (by simp [T3])
  exact hall.scan_eq

theorem mem_rowT3 {r : List Str} {c : Char} (hc : c ∈ rowT3 r) :
    (∃ cell ∈ r, c ∈ cell) ∨ c = ' ' ∨ c = '\n' := by
  simp only [rowT3, List.mem_append, List.mem_flatMap, List.mem_singleton] at hc
  rcases hc with ⟨cell, hcell, hcc | rfl⟩ | rfl
  · exact Or.inl ⟨cell, hcell, hcc⟩
  · exact Or.inr (Or.inl rfl)
  · exact Or.inr (Or.inr rfl)

theorem stage_cr (pat : Str) (rows : List (List Str)) (h : RowsOk rows)
    (hpat : ∃ ps, pat = '\r' :: ps) :
    scan (stepLitCS pat ['\n']) (T3 rows) = T3 rows := by
  apply Rew.scan_eq
  unfold T3
  have hflat : ∀ r ∈ rows, Rew (stepLitCS pat ['\n']) (rowT3 r) (rowT3 r) := by
    intro r hr
    obtain ⟨-, hcells⟩ := h r hr
    apply Rew.free
    intro c hc t
    obtain ⟨ps, rfl⟩ := hpat
    have hcr : c ≠ '\r' := by
      rcases mem_rowT3 hc with ⟨cell, hcell, hin⟩ | rfl | rfl
      · exact (safe_facts ((hcells cell hcell).2 c hin)).2.2.1
      · decide
      · decide
    exact stepLitCS_ne hcr ps ['\n'] t
  exact Rew.flat hflat

/-- Spaces in the stripped text are isolated: collapsing runs of blanks is
the identity there.  `rest` continues the text with a non-blank head. -/
theorem scanSpaces_row (r : List Str)
    (hcells : ∀ c ∈ r, c ≠ [] ∧ ∀ ch ∈ c, safeChar ch = true) :
    ∀ rest, (rest = [] ∨ ∃ d t, rest = d :: t ∧ isBlank d = false) →
    scan stepSpaces (r.flatMap (fun c => c ++ [' ']) ++ rest) =
      r.flatMap (fun c => c ++ [' ']) ++ scan stepSpaces rest := by
  induction r with
  | nil => intro rest _; simp
  | cons c cs ih =>
    intro rest hrest
    obtain ⟨hcne, hcsafe⟩ := hcells c (by simp)
    have hcells' : ∀ c' ∈ cs, c' ≠ [] ∧ ∀ ch ∈ c', safeChar ch = true :=
      fun c' hc' => hcells c' (by simp [hc'])
    have hcontent : Rew stepSpaces c c :=
      Rew.free (fun ch hch t => stepSpaces_ne (safe_facts (hcsafe ch hch)).2.2.2.2.1 t)
    have hmid : (cs.flatMap (fun c => c ++ [' ']) ++ rest) = [] ∨
        ∃ d t, cs.flatMap (fun c => c ++ [' ']) ++ rest = d :: t ∧ isBlank d = false := by
      cases cs with
      | nil =>
        simpa using hrest
      | cons c2 cs2 =>
        obtain ⟨hc2ne, hc2safe⟩ := hcells' c2 (by simp)
        cases hc2 : c2 with
        | nil => exact absurd hc2 hc2ne
        | cons ch2 t2 =>
          right
          refine ⟨ch2, t2 ++ [' '] ++ cs2.flatMap (fun c => c ++ [' ']) ++ rest, ?_, ?_⟩
          · simp [List.flatMap_cons, hc2]
          · exact (safe_facts (hc2safe ch2 (by simp [hc2]))).2.2.2.2.1
    have hsp : scan stepSpaces (' ' :: (cs.flatMap (fun c => c ++ [' ']) ++ rest)) =
        ' ' :: scan stepSpaces (cs.flatMap (fun c => c ++ [' ']) ++ rest) := by
      have hfire : stepSpaces (' ' :: (cs.flatMap (fun c => c ++ [' ']) ++ rest)) =
          some ([' '], cs.flatMap (fun c => c ++ [' ']) ++ rest) := by
        have hdrop : (cs.flatMap (fun c => c ++ [' ']) ++ rest).dropWhile isBlank =
            cs.flatMap (fun c => c ++ [' ']) ++ rest := by
          rcases hmid with he | ⟨d, t, heq, hd⟩
          · rw [he]; rfl
          · rw [heq, List.dropWhile_cons_of_neg (by simp [hd])]
        simp [stepSpaces, isBlank, hdrop]
      rw [scan_match stepSpaces stepSpaces_shrinks _ _ _ (by simp) hfire]
      rfl
    calc scan stepSpaces ((c :: cs).flatMap (fun c => c ++ [' ']) ++ rest)
        = scan stepSpaces (c ++ (' ' :: (cs.flatMap (fun c => c ++ [' ']) ++ rest))) := by
          simp [List.flatMap_cons]
      _ = c ++ scan stepSpaces (' ' :: (cs.flatMap (fun c => c ++ [' ']) ++ rest)) :=
          hcontent _
      _ = c ++ ' ' :: scan stepSpaces (cs.flatMap (fun c => c ++ [' ']) ++ rest) := by
          rw [hsp]
      _ = c ++ ' ' :: (cs.flatMap (fun c => c ++ [' ']) ++ scan stepSpaces rest) := by
          rw [ih hcells' rest hrest]
      _ = (c :: cs).flatMap (fun c => c ++ [' ']) ++ scan stepSpaces rest := by
          simp [List.flatMap_cons]

theorem stage_spaces (rows : List (List Str)) (h : RowsOk rows) :
    scan stepSpaces (T3 rows) = T3 rows := by
  induction rows with
  | nil => rfl
  | cons r rs ih =>
    obtain ⟨-, hcells⟩ := h r (by simp)
    have h' : RowsOk rs := fun r' hr' => h r' (by simp [hr'])
    have hT : T3 (r :: rs) =
        r.flatMap (fun c => c ++ [' ']) ++ ('\n' :: T3 rs) := by
      simp [T3, rowT3, List.flatMap_cons]
    rw [hT, scanSpaces_row r hcells ('\n' :: T3 rs) (Or.inr ⟨'\n', T3 rs, rfl, by decide⟩)]
    rw [scan_cons_none stepSpaces '\n' (T3 rs) (stepSpaces_ne (by decide) _)]
    rw [ih h']

theorem stepNewlines_two {c : Char} (h : c ≠ '\n') (t : Str) :
    stepNewlines ('\n' :: c :: t) = none := by
  have hb : (c == '\n') = false := by simp [h]
  simp [stepNewlines, hb]

/-- The head of the stripped text of a nonempty well-formed table is a safe
character. -/
theorem T3_head (r : List Str) (rs : List (List Str)) (hc : CellsOk r) :
    ∃ ch t, T3 (r :: rs) = ch :: t ∧ safeChar ch = true := by
  obtain ⟨hne, hcells⟩ := hc
  cases hr : r with
  | nil => exact absurd hr hne
  | cons c1 cs =>
    obtain ⟨hc1ne, hc1safe⟩ := hcells c1 (by simp [hr])
    cases hc1 : c1 with
    | nil => exact absurd hc1 hc1ne
    | cons ch t1 =>
      refine ⟨ch, t1 ++ [' '] ++ cs.flatMap (fun c => c ++ [' ']) ++ ['\n'] ++ T3 rs,
        ?_, hc1safe ch (by simp [hc1])⟩
      simp [T3, rowT3, hr, List.flatMap_cons, hc1]

theorem stage_newlines (rows : List (List Str)) (h : RowsOk rows) :
    scan stepNewlines (T3 rows) = T3 rows := by
  induction rows with
  | nil => rfl
  | cons r rs ih =>
    obtain ⟨-, hcells⟩ := h r (by simp)
    have h' : RowsOk rs := fun r' hr' => h r' (by simp [hr'])
    have hT : T3 (r :: rs) =
        r.flatMap (fun c => c ++ [' ']) ++ ('\n' :: T3 rs) := by
      simp [T3, rowT3, List.flatMap_cons]
    have hflat : Rew stepNewlines (r.flatMap (fun c => c ++ [' ']))
        (r.flatMap (fun c => c ++ [' '])) := by
      apply Rew.free
      intro c hc t
      apply stepNewlines_ne
      simp only [List.mem_flatMap, List.mem_append, List.mem_singleton] at hc
      obtain ⟨cell, hcell, hin⟩ := hc
      rcases hin with hin | rfl
      · exact (safe_facts ((hcells cell hcell).2 c hin)).2.2.2.1
      · decide
    have hnl : scan stepNewlines ('\n' :: T3 rs) = '\n' :: scan stepNewlines (T3 rs) := by
      apply scan_cons_none
      cases hrs : rs with
      | nil => rfl
      | cons r2 rs2 =>
        obtain ⟨ch, t, hT2, hsafe⟩ := T3_head r2 rs2 (h' r2 (by simp [hrs]))
        rw [hT2]
        exact stepNewlines_two (safe_facts hsafe).2.2.2.1 t
    rw [hT, hflat ('\n' :: T3 rs), hnl, ih h']

theorem stage_unescape (rows : List (List Str)) (h : RowsOk rows) :
    scan stepUnescape (tableHtml rows) = tableHtml rows := by
  apply Rew.scan_eq
  unfold tableHtml
  have hne : ∀ c, c ≠ '&' → ∀ t, stepUnescape (c :: t) = none :=
    fun c hc t => stepUnescape_ne hc t
  have hlits : ∀ l : Str, l.all (fun c => c != '&') = true → Rew stepUnescape l l :=
    fun l hb => Rew.free (fun c hc t => hne c
      (by have := List.all_eq_true.mp hb c hc; simpa using this) t)
  refine Rew.append (Rew.append (hlits _ (by decide)) (Rew.flat ?_))
    (hlits _ (by decide))
  intro r hr
  obtain ⟨-, hcells⟩ := h r hr
  unfold rowHtml
  refine Rew.append (Rew.append (hlits _ (by decide)) (Rew.flat ?_))
    (hlits _ (by decide))
  intro c hc
  obtain ⟨-, hsafe⟩ := hcells c hc
  unfold cellHtml
  refine Rew.append (Rew.append (hlits _ (by decide)) ?_) (hlits _ (by decide))
  exact Rew.free (fun ch hch t => hne ch (safe_facts (hsafe ch hch)).2.1 t)

/-! ### From the stripped text to the final lines -/

/-- Join strings with a separator. -/
def joinSep (sep : Str) : List Str → Str
  | [] => []
  | [x] => x
  | x :: xs => x ++ sep ++ joinSep sep xs

theorem flat_join (r : List Str) (hne : r ≠ []) :
    r.flatMap (fun c => c ++ [' ']) = joinSep [' '] r ++ [' '] := by
  induction r with
  | nil => exact absurd rfl hne
  | cons x xs ih =>
    cases xs with
    | nil => simp [joinSep]
    | cons y t =>
      rw [List.flatMap_cons, ih (by simp)]
      show x ++ [' '] ++ (joinSep [' '] (y :: t) ++ [' ']) =
        (x ++ [' '] ++ joinSep [' '] (y :: t)) ++ [' ']
      simp [List.append_assoc]

theorem mem_joinSep {sep : Str} {ls : List Str} {c : Char}
    (hc : c ∈ joinSep sep ls) : c ∈ sep ∨ ∃ l ∈ ls, c ∈ l := by
  induction ls with
  | nil => simp [joinSep] at hc
  | cons x xs ih =>
    cases xs with
    | nil =>
      simp only [joinSep] at hc
      exact Or.inr ⟨x, by simp, hc⟩
    | cons y t =>
      simp only [joinSep, List.mem_append] at hc
      rcases hc with (hx | hsep) | hrest
      · exact Or.inr ⟨x, by simp, hx⟩
      · exact Or.inl hsep
      · rcases ih hrest with h | ⟨l, hl, hcl⟩
        · exact Or.inl h
        · exact Or.inr ⟨l, by simp [hl], hcl⟩

theorem joinSep_ne_nil {sep : Str} {x : Str} {xs : List Str} (hx : x ≠ []) :
    joinSep sep (x :: xs) ≠ [] := by
  cases xs with
  | nil => simpa [joinSep] using hx
  | cons y t =>
    simp only [joinSep]
    intro he
    rcases List.append_eq_nil.mp he with ⟨h1, -⟩
    rcases List.append_eq_nil.mp h1 with ⟨h2, -⟩
    exact hx h2

theorem joinSep_head {sep : Str} {ch : Char} {t : Str} {xs : List Str} :
    ∃ rest, joinSep sep ((ch :: t) :: xs) = ch :: rest := by
  cases xs with
  | nil => exact ⟨t, rfl⟩
  | cons y ys => exact ⟨t ++ sep ++ joinSep sep (y :: ys), by simp [joinSep]⟩

theorem rev_head_safe {s : Str} (hne : s ≠ [])
    (hs : ∀ ch ∈ s, safeChar ch = true) :
    ∃ ch t, s.reverse = ch :: t ∧ safeChar ch = true := by
  cases hrev : s.reverse with
  | nil => exact absurd (by simpa using congrArg List.reverse hrev) hne
  | cons ch t =>
    refine ⟨ch, t, rfl, hs ch ?_⟩
    have : ch ∈ s.reverse := by simp [hrev]
    simpa using this

theorem joinSep_rev_safe {r : List Str}
    (hr : ∀ c ∈ r, c ≠ [] ∧ ∀ ch ∈ c, safeChar ch = true) (hne : r ≠ []) :
    ∃ ch t, (joinSep [' '] r).reverse = ch :: t ∧ safeChar ch = true := by
  induction r with
  | nil => exact absurd rfl hne
  | cons x xs ih =>
    cases xs with
    | nil =>
      obtain ⟨hx, hsafe⟩ := hr x (by simp)
      exact rev_head_safe hx hsafe
    | cons y t =>
      obtain ⟨ch, tl, hrev, hsafe⟩ := ih (fun c hc => hr c (by simp [hc])) (by simp)
      refine ⟨ch, tl ++ (x ++ [' ']).reverse, ?_, hsafe⟩
      show ((x ++ [' ']) ++ joinSep [' '] (y :: t)).reverse = _
      rw [List.reverse_append, hrev]
      simp

theorem dropWhile_append_all {p : Char → Bool} {a b : Str}
    (h : ∀ c ∈ a, p c = true) : (a ++ b).dropWhile p = b.dropWhile p := by
  induction a with
  | nil => simp
  | cons c t ih =>
    rw [List.cons_append, List.dropWhile_cons_of_pos (h c (by simp))]
    exact ih (fun c' hc' => h c' (by simp [hc']))

theorem pyStrip_sandwich (c0 : Char) (a0 b : Str) (h0 : isPySpace c0 = false)
    (hb : ∀ c ∈ b, isPySpace c = true)
    (hend : ∃ c1 t, (c0 :: a0).reverse = c1 :: t ∧ isPySpace c1 = false) :
    pyStrip ((c0 :: a0) ++ b) = c0 :: a0 := by
  obtain ⟨c1, t1, hrev, h1⟩ := hend
  unfold pyStrip
  rw [List.cons_append, List.dropWhile_cons_of_neg (by simp [h0]), ← List.cons_append,
    List.reverse_append,
    dropWhile_append_all (fun c hc => hb c (by simpa using hc)), hrev,
    List.dropWhile_cons_of_neg (by simp [h1]), ← hrev]
  simp

theorem splitNl_ne_nil (y : Str) : splitNl y ≠ [] := by
  induction y with
  | nil => simp [splitNl]
  | cons c t ih =>
    simp only [splitNl]
    split
    · simp
    · split
      · simp
      · simp

theorem splitNl_append_nonl {a : Str} (ha : ∀ c ∈ a, c ≠ '\n') (z : Str) :
    splitNl (a ++ '\n' :: z) = a :: splitNl z := by
  induction a with
  | nil => simp [splitNl]
  | cons c t ih =>
    rw [List.cons_append]
    simp only [splitNl, if_neg (ha c (by simp))]
    rw [ih (fun c' hc' => ha c' (by simp [hc']))]

theorem splitNl_no_nl {y : Str} (hy : ∀ c ∈ y, c ≠ '\n') : splitNl y = [y] := by
  induction y with
  | nil => rfl
  | cons c t ih =>
    simp only [splitNl, if_neg (hy c (by simp))]
    rw [ih (fun c' hc' => hy c' (by simp [hc']))]

theorem joinSep_head_safe (r : List Str) (hc : CellsOk r) :
    ∃ ch t, joinSep [' '] r = ch :: t ∧ safeChar ch = true := by
  obtain ⟨hne, hcells⟩ := hc
  cases hr : r with
  | nil => exact absurd hr hne
  | cons c1 xs =>
    obtain ⟨hc1ne, hc1safe⟩ := hcells c1 (by simp [hr])
    cases hc1 : c1 with
    | nil => exact absurd hc1 hc1ne
    | cons ch t1 =>
      obtain ⟨rest, hrest⟩ :=
        (joinSep_head : ∃ rest, joinSep [' '] ((ch :: t1) :: xs) = ch :: rest)
      exact ⟨ch, rest, hrest, hc1safe ch (by simp [hc1])⟩

theorem joinSep_no_nl (r : List Str) (hc : CellsOk r) :
    ∀ c ∈ joinSep [' '] r, c ≠ '\n' := by
  intro c hcm
  rcases mem_joinSep hcm with hsep | ⟨l, hl, hcl⟩
  · simp only [List.mem_singleton] at hsep
    subst hsep
    decide
  · exact (safe_facts ((hc.2 l hl).2 c hcl)).2.2.2.1

theorem pyStrip_J (r : List Str) (hc : CellsOk r) :
    pyStrip (joinSep [' '] r ++ [' ']) = joinSep [' '] r ∧
    pyStrip (joinSep [' '] r) = joinSep [' '] r := by
  obtain ⟨ch, t, hJ, hsafe⟩ := joinSep_head_safe r hc
  obtain ⟨ce, te, hrev, hesafe⟩ := joinSep_rev_safe hc.2 hc.1
  rw [hJ] at hrev ⊢
  constructor
  · exact pyStrip_sandwich ch t [' '] (safe_facts hsafe).2.2.2.2.2 (by decide)
      ⟨ce, te, hrev, (safe_facts hesafe).2.2.2.2.2⟩
  · have := pyStrip_sandwich ch t [] (safe_facts hsafe).2.2.2.2.2 (by simp)
      ⟨ce, te, hrev, (safe_facts hesafe).2.2.2.2.2⟩
    simpa using this

theorem splitNl_T3blocks (rs : List (List Str)) :
    ∀ z, RowsOk rs → splitNl (T3 rs ++ z) =
      (rs.map (fun r => joinSep [' '] r ++ [' '])) ++ splitNl z := by
  induction rs with
  | nil => intro z _; simp [T3]
  | cons r rs' ih =>
    intro z h
    have hcr : CellsOk r := h r (by simp)
    have h' : RowsOk rs' := fun r' hr' => h r' (by simp [hr'])
    have hrow : rowT3 r = (joinSep [' '] r ++ [' ']) ++ ['\n'] := by
      unfold rowT3
      rw [flat_join r hcr.1]
    have hT : T3 (r :: rs') ++ z =
        (joinSep [' '] r ++ [' ']) ++ ('\n' :: (T3 rs' ++ z)) := by
      have h1 : T3 (r :: rs') = rowT3 r ++ T3 rs' := by
        simp [T3, List.flatMap_cons]
      rw [h1, hrow]
      simp [List.append_assoc]
    rw [hT, splitNl_append_nonl ?nonl (T3 rs' ++ z), ih z h']
    case nonl =>
      intro c hcm
      rcases List.mem_append.mp hcm with hcm | hcm
      · exact joinSep_no_nl r hcr c hcm
      · simp only [List.mem_singleton] at hcm
        subst hcm
        decide
    rfl

theorem pageLines_T3 (rows : List (List Str)) (h : RowsOk rows) :
    ((splitNl (pyStrip (T3 rows))).map pyStrip).filter (fun l => !l.isEmpty) =
      rows.map (fun r => joinSep [' '] r) := by
  rcases List.eq_nil_or_concat rows with rfl | ⟨rs, rl, rfl⟩
  · rfl
  · simp only [List.concat_eq_append] at h ⊢
    have hcrl : CellsOk rl := h rl (by simp)
    have hrs : RowsOk rs := fun r' hr' => h r' (by simp [hr'])
    have hT : T3 (rs ++ [rl]) =
        (T3 rs ++ joinSep [' '] rl) ++ [' ', '\n'] := by
      have h1 : T3 (rs ++ [rl]) = T3 rs ++ rowT3 rl := by
        simp [T3, List.flatMap_append]
      have hrow : rowT3 rl = (joinSep [' '] rl ++ [' ']) ++ ['\n'] := by
        unfold rowT3
        rw [flat_join rl hcrl.1]
      rw [h1, hrow]
      simp [List.append_assoc]
    have hA : ∃ c0 a0, T3 rs ++ joinSep [' '] rl = c0 :: a0 ∧ safeChar c0 = true := by
      cases hrs0 : rs with
      | nil =>
        obtain ⟨ch, t, hJ, hsafe⟩ := joinSep_head_safe rl hcrl
        exact ⟨ch, t, by simp [T3, hJ], hsafe⟩
      | cons r0 rs0 =>
        obtain ⟨ch, t, hT3, hsafe⟩ := T3_head r0 rs0 (hrs r0 (by simp [hrs0]))
        exact ⟨ch, t ++ joinSep [' '] rl, by rw [hT3]; simp, hsafe⟩
    have hAend : ∃ ce te, (T3 rs ++ joinSep [' '] rl).reverse = ce :: te ∧
        safeChar ce = true := by
      obtain ⟨ce, te, hrev, hesafe⟩ := joinSep_rev_safe hcrl.2 hcrl.1
      exact ⟨ce, te ++ (T3 rs).reverse, by rw [List.reverse_append, hrev]; simp, hesafe⟩
    have hstrip : pyStrip (T3 (rs ++ [rl])) = T3 rs ++ joinSep [' '] rl := by
      obtain ⟨c0, a0, hA0, hsafe0⟩ := hA
      obtain ⟨ce, te, hrev, hesafe⟩ := hAend
      rw [hT, hA0]
      rw [hA0] at hrev
      exact pyStrip_sandwich c0 a0 [' ', '\n'] (safe_facts hsafe0).2.2.2.2.2
        (by decide) ⟨ce, te, hrev, (safe_facts hesafe).2.2.2.2.2⟩
    rw [hstrip, splitNl_T3blocks rs (joinSep [' '] rl) hrs,
      splitNl_no_nl (joinSep_no_nl rl hcrl), List.map_append, List.filter_append]
    have hpart1 : ((rs.map (fun r => joinSep [' '] r ++ [' '])).map pyStrip).filter
        (fun l => !l.isEmpty) = rs.map (fun r => joinSep [' '] r) := by
      rw [List.map_map]
      have hmc : rs.map (pyStrip ∘ fun r => joinSep [' '] r ++ [' ']) =
          rs.map (fun r => joinSep [' '] r) :=
        List.map_congr_left (fun r hr => (pyStrip_J r (hrs r hr)).1)
      rw [hmc]
      apply List.filter_eq_self.mpr
      intro a ha
      obtain ⟨r, hr, rfl⟩ := List.mem_map.mp ha
      obtain ⟨ch, t, hJ, -⟩ := joinSep_head_safe r (hrs r hr)
      simp [hJ]
    have hpart2 : (([joinSep [' '] rl]).map pyStrip).filter (fun l => !l.isEmpty) =
        [joinSep [' '] rl] := by
      obtain ⟨ch, t, hJ, -⟩ := joinSep_head_safe rl hcrl
      rw [List.map_singleton, (pyStrip_J rl hcrl).2]
      simp [hJ]
    rw [hpart1, hpart2, List.map_append]
    rfl

/-- C7: the normalizer converts cell boundaries to spaces and row boundaries
to line breaks before stripping the remaining markup, so that for every
rendered table page of values (each row nonempty, each value a nonempty run
of digit or dot characters), the values of distinct cells of a row stay
separated by a single space on one line of the normalized text, and distinct
rows end up on distinct lines: the lines the program extracts from the page
are exactly one line per table row, with that row's values joined by single
spaces. -/
theorem C7_normalizer_preserves_table (rows : List (List Str))
    (h : RowsOk rows) :
    pageLines (tableHtml rows) = rows.map (fun r => joinSep [' '] r) := by
  unfold pageLines
  rw [show html_to_text_preserve_table (tableHtml rows) = pyStrip (T3 rows) by
    simp only [html_to_text_preserve_table]
    rw [stage_unescape rows h, stage_cellEnd rows h, stage_tr rows h,
      stage_br rows h, stage_p rows h, stage_script rows h, stage_style rows h,
      stage_tags rows h, stage_cr ['\r', '\n'] rows h ⟨['\n'], rfl⟩,
      stage_cr ['\r'] rows h ⟨[], rfl⟩, stage_spaces rows h,
      stage_newlines rows h]]
  exact pageLines_T3 rows h

theorem C7_normalizer_preserves_table_witness :
    pageLines (tableHtml [ [ ['0', '.', '4', '8'], ['0', '.', '5', '8'] ],
        [ ['0', '.', '1', '2'], ['1', '.', '0', '0'] ] ]) =
      [ ['0', '.', '4', '8', ' ', '0', '.', '5', '8'],
        ['0', '.', '1', '2', ' ', '1', '.', '0', '0'] ] :=
  C7_normalizer_preserves_table
    [ [ ['0', '.', '4', '8'], ['0', '.', '5', '8'] ],
      [ ['0', '.', '1', '2'], ['1', '.', '0', '0'] ] ] (by decide)

end Moon
